import Mathlib

/-!
A verification development for the task-scheduling engine of this
repository (`src/project/lib/dateUtils.ts`, `src/project/lib/taskUtils.ts`,
`src/project/services/ganttService.ts`).

Modelling conventions:
* Calendar dates are modelled as integers (day numbers); `addDays d 1 = d + 1`
  and two `Date`s fall on the same calendar day iff the integers are equal.
* The holiday predicate `isHoliday` (from the holiday store) is passed
  explicitly as a parameter `hol : Int → Bool`.
* Loops whose termination depends on the calendar containing enough working
  days (the `while` loop of `calculateEndDate`) take a fuel argument and
  return `Option Int`; `none` models the loop not terminating within fuel.
* JavaScript `number` fields holding day counts are modelled as `Int`;
  the float `progress` field is modelled as `Rat` (exact arithmetic).
* `null`/`undefined` fields of `Task` are `Option`; a `Partial<Task>` patch
  uses a double `Option` (outer: key present; inner: value non-null) so that
  JavaScript truthiness and object-spread merging can be modelled exactly.
-/

namespace Gantt

/-! ### Definitions -/

/-- The string `","` (predecessor lists are comma separated). -/
def commaS : String := ","

/-- The string `"."` (WBS labels are dot separated). -/
def dotS : String := "."

/-- The sentinel string `"0"` meaning "no predecessors". -/
def zeroS : String := "0"

/-- Whitespace for the purposes of `String.prototype.trim`. -/
def isWsC (c : Char) : Bool := c = ' ' || c = '\t' || c = '\n' || c = '\r'

/-- JS `s.trim()`: strip leading and trailing whitespace.  (Implemented on
the character list so that it evaluates by kernel reduction.) -/
def trimS (s : String) : String :=
  String.mk (((s.data.dropWhile isWsC).reverse.dropWhile isWsC).reverse)

/-- Is the string empty? -/
def isEmptyS (s : String) : Bool := s.data.isEmpty

/-- Splitter for JS `s.split(',')` (accumulator holds the current field in
reverse). -/
def splitCommaCh : List Char → List Char → List (List Char)
  | [], acc => [acc.reverse]
  | c :: rest, acc =>
    if c = ',' then acc.reverse :: splitCommaCh rest [] else splitCommaCh rest (c :: acc)

/-- JS `s.split(',')`. -/
def splitComma (s : String) : List String :=
  (splitCommaCh s.data []).map String.mk

/-- Model of JavaScript `parseInt` on an already-trimmed string: optional
minus sign, then the longest leading run of decimal digits; `none` models
`NaN` (no digits at all). -/
def parseIntM (s : String) : Option Int :=
  let p := match s.data with
    | '-' :: r => (true, r)
    | cs => (false, cs)
  let digits := p.2.takeWhile Char.isDigit
  if digits.isEmpty then none
  else
    let n : Nat := digits.foldl (fun acc c => acc * 10 + (c.toNat - 48)) 0
    some (if p.1 then -(n : Int) else (n : Int))

/-- `predecessorIds.split(',').map(id => parseInt(id.trim())).filter(id => !isNaN(id))`:
the parsed list of referenced ordinals. -/
def parsePredIds (s : String) : List Int :=
  (splitComma s).filterMap (fun t => parseIntM (trimS t))

/-! ## Date arithmetic (`src/project/lib/dateUtils.ts`) -/

/-- The `while (daysAdded < daysToAdd)` loop of `calculateEndDate`:
starting from `result`, step one day at a time, counting a day only when it
is not a holiday, until `remaining` working days have been counted.  Fuel
bounds the number of loop iterations. -/
def endDateLoop (hol : Int → Bool) : Nat → Int → Nat → Option Int
  | _, result, 0 => some result
  | 0, _, _ + 1 => none
  | fuel + 1, result, remaining + 1 =>
    let result2 := result + 1
    if hol result2 then endDateLoop hol fuel result2 (remaining + 1)
    else endDateLoop hol fuel result2 remaining

/-- `calculateEndDate(startDate, duration, excludeHolidays)`.  Duration 1
means the end date is the start date; without holiday exclusion the result
is `start + (duration - 1)`; with exclusion the result is found by the
day-stepping loop (`(duration - 1).toNat` also covers the JS behaviour for
non-positive durations, where the loop body never runs). -/
def calculateEndDate (hol : Int → Bool) (excludeHolidays : Bool) (fuel : Nat)
    (startDate : Int) (duration : Int) : Option Int :=
  if duration = 1 then some startDate
  else if !excludeHolidays then some (startDate + (duration - 1))
  else endDateLoop hol fuel startDate (duration - 1).toNat

/-- Number of non-holiday days among `a, a+1, ..., a+len-1`
(the counting loop of `calculateDuration`). -/
def countWorkingLen (hol : Int → Bool) : Int → Nat → Nat
  | _, 0 => 0
  | a, len + 1 => (if hol a then 0 else 1) + countWorkingLen hol (a + 1) len

/-- `calculateDuration(startDate, endDate, excludeHolidays)`: 1 if the two
dates are the same day; otherwise without exclusion
`differenceInDays(end, start) + 1`, and with exclusion the number of
non-holiday days in the closed interval `[start, end]`. -/
def calculateDuration (hol : Int → Bool) (excludeHolidays : Bool)
    (startDate : Int) (endDate : Int) : Int :=
  if startDate = endDate then 1
  else if !excludeHolidays then (endDate - startDate) + 1
  else (countWorkingLen hol startDate (endDate + 1 - startDate).toNat : Int)

/-- The first working day strictly after `d` (spec reading of
"plus one working day"); fuelled search. -/
def nextWorkingDay (hol : Int → Bool) : Nat → Int → Option Int
  | 0, _ => none
  | fuel + 1, d => if hol (d + 1) then nextWorkingDay hol fuel (d + 1) else some (d + 1)

/-- A concrete calendar whose only holiday is day 0. -/
def holZero : Int → Bool := fun i => i == 0

/-! ## The task record (`src/project/types/task.ts`) -/

/-- The `Task` entity, restricted to the fields the scheduling engine reads
or writes.  Dates are day numbers (`Option Int`, `none` = `null`), the float
`progress` is a `Rat`, and the optional booleans `isDeleted`/`isParent`
are plain `Bool` (JS `undefined` is falsy). -/
structure Task where
  id : String
  siNo : Int
  wbsNo : String
  predecessorIds : Option String
  level : Nat
  startDate : Option Int
  endDate : Option Int
  duration : Option Int
  actualStartDate : Option Int
  actualEndDate : Option Int
  actualDuration : Option Int
  progress : Rat
  isDeleted : Bool
  isParent : Bool
  deriving DecidableEq

/-- A `Partial<Task>` patch (`TaskUpdate` in the source) over the updatable
fields.  The outer `Option` is key presence, the inner one nullability, so
`none` is an absent key, `some none` an explicit `null`, and `some (some v)`
a real value; `progress` cannot be `null` in the TS type. -/
structure TaskPatch where
  predecessorIds : Option (Option String) := none
  startDate : Option (Option Int) := none
  endDate : Option (Option Int) := none
  duration : Option (Option Int) := none
  actualStartDate : Option (Option Int) := none
  actualEndDate : Option (Option Int) := none
  actualDuration : Option (Option Int) := none
  progress : Option Rat := none
  deriving DecidableEq

/-- Reading a patch field: an absent key and an explicit `null` are both
`none` (JS `task.field` yields `undefined` resp. `null`, both falsy). -/
def pval (x : Option (Option α)) : Option α := x.getD none

/-! ## `adjustDates` (`src/project/lib/dateUtils.ts`) -/

/-- The planned-dates block of `adjustDates`: when a start date is set,
fill in whichever of end date / duration is missing, and when all three are
present recompute the end date from the duration.  A duration of `0` is
falsy in JS, hence the `d = 0` cases. -/
def adjustDatesPlanned (hol : Int → Bool) (fuel : Nat) (task : TaskPatch) : TaskPatch :=
  match pval task.startDate with
  | none => task
  | some sd =>
    match pval task.duration, pval task.endDate with
    | some d, none =>
      if d = 0 then task
      else { task with endDate := some (calculateEndDate hol true fuel sd d) }
    | some d, some ed =>
      if d = 0 then { task with duration := some (some (calculateDuration hol true sd ed)) }
      else { task with endDate := some (calculateEndDate hol true fuel sd d) }
    | none, some ed => { task with duration := some (some (calculateDuration hol true sd ed)) }
    | none, none => task

/-- The actual-dates block of `adjustDates`; when both actual dates are
present (with or without an actual duration) the actual duration is
recomputed from them. -/
def adjustDatesActual (hol : Int → Bool) (fuel : Nat) (task : TaskPatch) : TaskPatch :=
  match pval task.actualStartDate with
  | none => task
  | some asd =>
    match pval task.actualDuration, pval task.actualEndDate with
    | some d, none =>
      if d = 0 then task
      else { task with actualEndDate := some (calculateEndDate hol true fuel asd d) }
    | some _, some aed =>
      { task with actualDuration := some (some (calculateDuration hol true asd aed)) }
    | none, some aed =>
      { task with actualDuration := some (some (calculateDuration hol true asd aed)) }
    | none, none => task

/-- `adjustDates(task)`: planned block, then actual block. -/
def adjustDates (hol : Int → Bool) (fuel : Nat) (task : TaskPatch) : TaskPatch :=
  adjustDatesActual hol fuel (adjustDatesPlanned hol fuel task)

/-! ## Predecessor date propagation (`src/project/lib/taskUtils.ts`) -/

/-- `Math.max` over a list (`none` on the empty list). -/
def listMaxInt (l : List Int) : Option Int :=
  l.foldl (fun acc x => match acc with | none => some x | some m => some (max m x)) none

/-- `Math.min` over a list (`none` on the empty list). -/
def listMinInt (l : List Int) : Option Int :=
  l.foldl (fun acc x => match acc with | none => some x | some m => some (min m x)) none

/-- `getMaxPredecessorEndDate(tasks, predecessorIds)`: the latest end date
among the non-deleted tasks whose ordinal appears in the parsed reference
list and that have an end date; `null` when there are none. -/
def getMaxPredecessorEndDate (tasks : List Task) (predecessorIds : String) : Option Int :=
  if isEmptyS (trimS predecessorIds) then none
  else
    let siNos := parsePredIds predecessorIds
    if siNos.isEmpty then none
    else
      let predecessors := tasks.filter
        (fun t => !t.isDeleted && siNos.contains t.siNo && t.endDate.isSome)
      if predecessors.isEmpty then none
      else listMaxInt (predecessors.filterMap Task.endDate)

/-- `adjustTaskDatesWithPredecessors(task, allTasks)`.  With no predecessor
text (or the sentinel `"0"`) it is just `adjustDates`.  Otherwise, when the
predecessors yield a maximum end date `m` and the task's start is unset or
`≤ m`, the start becomes `m + 1` (one calendar day after `m`) and end
date / duration are filled per the three-way branch of the source; then the
actual duration is recomputed (or nulled), progress is forced to 100 when an
actual end date is present, and `adjustDates` runs last.  The raw-millisecond
day difference of the source is the exact integer difference here. -/
def adjustTaskDatesWithPredecessors (hol : Int → Bool) (fuel : Nat)
    (task : TaskPatch) (allTasks : List Task) : TaskPatch :=
  match pval task.predecessorIds with
  | none => adjustDates hol fuel task
  | some pid =>
    if isEmptyS (trimS pid) || pid == zeroS then adjustDates hol fuel task
    else
      let t1 :=
        match getMaxPredecessorEndDate allTasks pid with
        | none => task
        | some maxPredEndDate =>
          let fire :=
            match pval task.startDate with
            | none => true
            | some st => decide (st ≤ maxPredEndDate)
          if fire then
            let newStartDate := maxPredEndDate + 1
            let base := { task with startDate := some (some newStartDate) }
            let rest :=
              match pval task.endDate with
              | some ed =>
                let differenceInDays := ed - newStartDate
                { base with duration := some (some (max 1 (differenceInDays + 1))) }
              | none =>
                { base with duration := some (some 1), endDate := some (some newStartDate) }
            match pval task.duration with
            | some d =>
              if 0 < d then
                { base with endDate := some (calculateEndDate hol true fuel newStartDate d),
                            duration := some (some d) }
              else rest
            | none => rest
          else task
      let t2 :=
        match pval t1.actualStartDate, pval t1.actualEndDate with
        | some asd, some aed =>
          { t1 with actualDuration := some (some (calculateDuration hol true asd aed)) }
        | _, _ => { t1 with actualDuration := some none }
      let t3 := if (pval t2.actualEndDate).isSome then { t2 with progress := some 100 } else t2
      adjustDates hol fuel t3

/-- The string `"1"`. -/
def oneS : String := "1"

/-- A concrete predecessor task: ordinal 1, planned end on day 10. -/
def wPred : Task :=
  { id := "p1", siNo := 1, wbsNo := "1", predecessorIds := none, level := 0,
    startDate := some 5, endDate := some 10, duration := some 6,
    actualStartDate := none, actualEndDate := none, actualDuration := none,
    progress := 0, isDeleted := false, isParent := false }

/-- A concrete patch referencing predecessor 1, with no dates of its own. -/
def wPatch : TaskPatch := { predecessorIds := some (some oneS) }

/-- A calendar whose only holiday is day 11. -/
def holEleven : Int → Bool := fun i => i == 11

/-! ## Hierarchy, WBS numbering and renumbering (`src/project/lib/taskUtils.ts`) -/

/-- The child loop of `processChildren`/`updateWbsNumbers`: scan the tasks
after a parent of level `parentLevel` and label `parentWbs`, stopping at the
first task of level `≤ parentLevel`; each direct child (level exactly
`parentLevel + 1`) gets `parentWbs.counter` and its own subtree is scanned
recursively; deeper tasks are skipped (their labels come from that nested
scan). -/
def childScan (parentLevel : Nat) (parentWbs : String) (l : List Task)
    (counter : Nat) : List (String × String) :=
  match l with
  | [] => []
  | t :: rest =>
    if t.level ≤ parentLevel then []
    else if t.level = parentLevel + 1 then
      let childWbs := parentWbs ++ dotS ++ toString counter
      (t.id, childWbs) ::
        (childScan t.level childWbs rest 1 ++ childScan parentLevel parentWbs rest (counter + 1))
    else childScan parentLevel parentWbs rest counter

/-- The top-level loops of `updateWbsNumbers`: level-0 tasks get `1, 2, 3, …`
in order and their subtrees are scanned by `childScan`. -/
def topScan (l : List Task) (counter : Nat) : List (String × String) :=
  match l with
  | [] => []
  | t :: rest =>
    if t.level = 0 then
      (t.id, toString counter) :: (childScan 0 (toString counter) rest 1 ++ topScan rest (counter + 1))
    else topScan rest counter

/-- `updateWbsNumbers(tasks)`: recompute the WBS label map over the
non-deleted tasks and rewrite each non-deleted task's label (keeping the old
label when the map has no entry).  Ids are assumed unique, as in the store,
so first-match lookup agrees with the JS `Map`. -/
def updateWbsNumbers (tasks : List Task) : List Task :=
  let activeTasks := tasks.filter (fun t => !t.isDeleted)
  let wbsMap := topScan activeTasks 1
  tasks.map (fun t =>
    if t.isDeleted then t
    else
      match wbsMap.find? (fun e => e.1 == t.id) with
      | some e => { t with wbsNo := e.2 }
      | none => t)

/-- `findAllChildTasks(tasks, task)`: the non-deleted tasks after `task`
with level strictly greater than `task.level`, up to the first task of level
`≤ task.level`. -/
def findAllChildTasks (tasks : List Task) (task : Task) : List Task :=
  match tasks.findIdx? (fun t => t.id == task.id) with
  | none => []
  | some i =>
    ((tasks.drop (i + 1)).takeWhile (fun t => task.level < t.level)).filter
      (fun t => !t.isDeleted)

/-- `findSiblingTasks(tasks, task)`: all level-0 tasks for a level-0 task;
otherwise the direct children of the nearest preceding task one level up
(`[task]` when no parent is found). -/
def findSiblingTasks (tasks : List Task) (task : Task) : List Task :=
  if task.level = 0 then tasks.filter (fun t => t.level == 0 && !t.isDeleted)
  else
    let taskIndex := tasks.findIdx (fun t => t.id == task.id)
    match (tasks.take taskIndex).reverse.find? (fun t => t.level == task.level - 1) with
    | none => [task]
    | some parentTask =>
      let pstart := tasks.findIdx (fun t => t.id == parentTask.id)
      let scope := (tasks.drop (pstart + 1)).takeWhile (fun t => parentTask.level < t.level)
      (scope.filter (fun t => t.level == task.level)).filter (fun t => !t.isDeleted)

/-- The `siNo: i + 1` renumbering loop of the move operations: assign
`n, n+1, n+2, …` along the list. -/
def renumberSeq : List Task → Int → List Task
  | [], _ => []
  | t :: rest, n => { t with siNo := n } :: renumberSeq rest (n + 1)

/-- Concatenation with commas (JS `array.join(',')`). -/
def joinComma : List String → String
  | [] => ""
  | [s] => s
  | s :: rest => s ++ commaS ++ joinComma rest

/-- `updatePredecessorsAfterMove(tasks, originalSiMap)`: rewrite every
predecessor token by looking up which task originally carried that ordinal
(insertion-ordered map, modelled as an association list) and substituting
that task's new ordinal; unparsable or unresolvable tokens stay as they
were. -/
def updatePredecessorsAfterMove (tasks : List Task)
    (originalSiMap : List (String × Int)) : List Task :=
  tasks.map (fun task =>
    match task.predecessorIds with
    | none => task
    | some pid =>
      let parts := (splitComma pid).map (fun siStr =>
        match parseIntM (trimS siStr) with
        | none => siStr
        | some siNo =>
          match originalSiMap.find? (fun e => e.2 == siNo) with
          | none => siStr
          | some entry =>
            match tasks.find? (fun t => t.id == entry.1) with
            | none => siStr
            | some newTask => toString newTask.siNo)
      { task with predecessorIds := some (joinComma parts) })

/-- The main branch of `moveTaskUp` once the task and its previous sibling
are known: remove both blocks (the tasks plus their descendants), re-insert
them in swapped order at the previous sibling's old position, renumber all
ordinals sequentially from 1, remap predecessor references by identity, and
recompute WBS labels. -/
def moveTaskUpCore (tasks : List Task) (task previousSibling : Task) : List Task :=
  let previousSiblingIndex := tasks.findIdx (fun t => t.id == previousSibling.id)
  let taskChildren := findAllChildTasks tasks task
  let previousSiblingChildren := findAllChildTasks tasks previousSibling
  let taskGroup := task :: taskChildren
  let prevTaskGroup := previousSibling :: previousSiblingChildren
  let originalSiMap := tasks.map (fun t => (t.id, t.siNo))
  let filtered := tasks.filter (fun t =>
    !(taskGroup.any (fun mt => mt.id == t.id)) &&
    !(prevTaskGroup.any (fun mt => mt.id == t.id)))
  let newTasks :=
    filtered.take previousSiblingIndex ++ taskGroup ++ prevTaskGroup ++
      filtered.drop previousSiblingIndex
  updateWbsNumbers (updatePredecessorsAfterMove (renumberSeq newTasks 1) originalSiMap)

/-- `moveTaskUp(tasks, taskId)`: swap the task's block (itself plus its
descendants) with the previous sibling's block; all the early
`return tasks` guards of the source are kept. -/
def moveTaskUp (tasks : List Task) (taskId : String) : List Task :=
  match tasks.findIdx? (fun t => t.id == taskId && !t.isDeleted) with
  | none => tasks
  | some taskIndex =>
    if taskIndex = 0 then tasks
    else
      match tasks.get? taskIndex with
      | none => tasks
      | some task =>
        match (findSiblingTasks tasks task).findIdx? (fun s => s.id == task.id) with
        | none => tasks
        | some siblingIndex =>
          if siblingIndex = 0 then tasks
          else
            match (findSiblingTasks tasks task).get? (siblingIndex - 1) with
            | none => tasks
            | some previousSibling => moveTaskUpCore tasks task previousSibling

/-- Stable ascending insertion by ordinal (model of the stable JS
`sort((a, b) => a.siNo - b.siNo)`). -/
def insertBySiNo (t : Task) : List Task → List Task
  | [] => [t]
  | u :: rest => if t.siNo ≤ u.siNo then t :: u :: rest else u :: insertBySiNo t rest

/-- Stable sort by ordinal. -/
def sortBySiNo : List Task → List Task
  | [] => []
  | t :: rest => insertBySiNo t (sortBySiNo rest)

/-- One predecessor token of `updateSiNumbersAfterDeletion`: tokens that do
not parse, reference a deleted ordinal, or cannot be resolved among the
sorted tasks become `""` (dropped later); surviving tokens become the
referenced task's new ordinal, `position in the sorted list + 1` minus the
number of deleted ordinals before it. -/
def renumberPredToken (sorted : List Task) (deletedSiNos : List Int) (idStr : String) : String :=
  match parseIntM (trimS idStr) with
  | none => ""
  | some predSiNo =>
    if deletedSiNos.contains predSiNo then ""
    else
      match sorted.find? (fun t => t.siNo == predSiNo) with
      | none => ""
      | some predTask =>
        if predTask.isDeleted then ""
        else
          let predIndex := sorted.findIdx (fun t => t.siNo == predSiNo)
          let deletedBefore := (deletedSiNos.filter (fun s => s < predSiNo)).length
          toString ((predIndex : Int) + 1 - (deletedBefore : Int))

/-- The per-task rewrite of `updateSiNumbersAfterDeletion` for a surviving
task: assign the next dense ordinal and rewrite the predecessor text
(empty results become `null`; an already-empty text is falsy and skipped). -/
def renumberedTask (sorted : List Task) (deletedSiNos : List Int)
    (task : Task) (nextSiNo : Int) : Task :=
  let newTask := { task with siNo := nextSiNo }
  match newTask.predecessorIds with
  | none => newTask
  | some pid =>
    if isEmptyS pid then newTask
    else
      let parts := (splitComma pid).map (renumberPredToken sorted deletedSiNos)
      let joined := joinComma (parts.filter (fun s => !(isEmptyS s)))
      { newTask with predecessorIds := if isEmptyS joined then none else some joined }

/-- The main loop of `updateSiNumbersAfterDeletion` over the sorted task
list: deleted tasks (and tasks whose ordinal is in the deleted set) pass
through unchanged; every other task receives the next dense ordinal and has
its predecessor text rewritten. -/
def renumberGo (sorted : List Task) (deletedSiNos : List Int) :
    List Task → Int → List Task
  | [], _ => []
  | task :: rest, nextSiNo =>
    if task.isDeleted || deletedSiNos.contains task.siNo then
      task :: renumberGo sorted deletedSiNos rest nextSiNo
    else
      renumberedTask sorted deletedSiNos task nextSiNo ::
        renumberGo sorted deletedSiNos rest (nextSiNo + 1)

/-- `updateSiNumbersAfterDeletion(tasks, deletedSiNos)`. -/
def updateSiNumbersAfterDeletion (tasks : List Task) (deletedSiNos : List Int) : List Task :=
  renumberGo (sortBySiNo tasks) deletedSiNos (sortBySiNo tasks) 1

/-- `[s, s+1, …, s+len-1]` as integers (the dense ordinal range). -/
def intRange : Int → Nat → List Int
  | _, 0 => []
  | s, len + 1 => s :: intRange (s + 1) len

/-- A task record with the structural fields set and everything else at its
defaults (no dates, progress 0, not a parent). -/
def mkTask (i : String) (siNo : Int) (level : Nat) (deleted : Bool)
    (pred : Option String) : Task :=
  { id := i, siNo := siNo, wbsNo := toString siNo, predecessorIds := pred, level := level,
    startDate := none, endDate := none, duration := none, actualStartDate := none,
    actualEndDate := none, actualDuration := none, progress := 0,
    isDeleted := deleted, isParent := false }

/-- Four depth-0 tasks: three live ones with dense ordinals 1, 2, 3 and a
tombstoned one (stale ordinal 9) sitting between the first and the second. -/
def mvA : Task := mkTask ("A") 1 0 false none

/-- The tombstoned task of the move counterexample. -/
def mvD : Task := mkTask ("D") 9 0 true none

/-- Second live task of the move counterexample. -/
def mvB : Task := mkTask ("B") 2 0 false none

/-- Third live task of the move counterexample. -/
def mvC : Task := mkTask ("C") 3 0 false none

/-- The id string of the task being moved in the counterexample. -/
def mvCId : String := "C"

/-- Live task 1 for the deletion-renumbering witness. -/
def dA : Task := mkTask ("da") 1 0 false none

/-- Tombstoned task 2 for the deletion-renumbering witness. -/
def dB : Task := mkTask ("db") 2 0 true none

/-- Live task 3 for the deletion-renumbering witness. -/
def dC : Task := mkTask ("dc") 3 0 false none

/-! ### Deleting the middle of three siblings (claim C4) -/

/-- The string `"2"`. -/
def twoS : String := "2"

/-- The string `"3"`. -/
def threeS : String := "3"

/-- Id of the first scenario task. -/
def aId : String := "a"

/-- Id of the third scenario task. -/
def cId : String := "c"

/-- First depth-0 sibling (ordinal 1) with an arbitrary predecessor text. -/
def c4t1 (p : Option String) : Task := mkTask aId 1 0 false p

/-- Second depth-0 sibling (ordinal 2), already tombstoned by the delete
operation before renumbering runs. -/
def c4t2 : Task := mkTask ("b") 2 0 true none

/-- Third depth-0 sibling (ordinal 3) with an arbitrary predecessor text. -/
def c4t3 (p : Option String) : Task := mkTask cId 3 0 false p

/-! ## Parent aggregation (`src/project/services/ganttService.ts`) -/

/-- JS `s.startsWith(pre)` (on character lists, for kernel reduction). -/
def startsWithS (s pre : String) : Bool := pre.data.isPrefixOf s.data

/-- `Math.round` of JS: round half towards positive infinity. -/
def jsRound (x : Rat) : Int := ⌊x + 1 / 2⌋

/-- The structural fields of a task that the two aggregation passes never
write: id, level, WBS label, deletion flag and parent flag. -/
def shapeOf (t : Task) : String × Nat × String × Bool × Bool :=
  (t.id, t.level, t.wbsNo, t.isDeleted, t.isParent)

/-- The entry of a task list with the given id (first match, as
`findIndex`-based lookups behave with the store's unique ids). -/
def entryById (s : List Task) (i : String) : Option Task :=
  s.find? (fun t => t.id == i)

/-- Replace the element at an index (out-of-range indices leave the list
unchanged, as an out-of-range JS index write cannot happen here). -/
def listModify (f : Task → Task) : List Task → Nat → List Task
  | [], _ => []
  | x :: rest, 0 => f x :: rest
  | x :: rest, n + 1 => x :: listModify f rest n

/-- `tasks.findIndex(t => t.id === i)` followed by an in-place update of
that element; no-op when the id is absent. -/
def modifyById (s : List Task) (i : String) (f : Task → Task) : List Task :=
  match s.findIdx? (fun t => t.id == i) with
  | none => s
  | some k => listModify f s k

/-- The `findDirectChildren` helper shared by `updateParentDates` and
`updateParentProgress`: non-deleted tasks one level below the parent whose
WBS label extends the parent's label by a dot. -/
def findDirectChildren (parentTask : Task) (allTasks : List Task) : List Task :=
  allTasks.filter (fun t =>
    !t.isDeleted && t.level == parentTask.level + 1 &&
      startsWithS t.wbsNo (parentTask.wbsNo ++ dotS))

/-- Stable descending insertion by level (model of the stable JS
`sort((a, b) => b.level - a.level)`). -/
def insertByLevelDesc (t : Task) : List Task → List Task
  | [] => [t]
  | u :: rest => if u.level ≤ t.level then t :: u :: rest else u :: insertByLevelDesc t rest

/-- Stable sort by descending level (bottom-up processing order). -/
def sortByLevelDesc : List Task → List Task
  | [] => []
  | t :: rest => insertByLevelDesc t (sortByLevelDesc rest)

/-- The progress value `updateParentProgress` writes into a parent: the
mean of the children's progress values, rounded to one decimal place
(`Math.round(x*10)/10`) and clamped to `[0, 100]`.  The `isNaN` fallback of
the source cannot fire: the children list is non-empty when this is used,
and `Rat` arithmetic is exact. -/
def childrenProgressValue (children : List Task) : Rat :=
  let totalProgress := children.foldl (fun sum child => sum + child.progress) 0
  let avgProgress := ((jsRound ((totalProgress / (children.length : Rat)) * 10) : Rat)) / 10
  min (max avgProgress 0) 100

/-- One iteration of the `updateParentProgress` loop: recompute one
parent's progress from its direct children in the current state. -/
def progressStep (s : List Task) (p : Task) : List Task :=
  if 0 < ((findDirectChildren p s).filter (fun t => !t.isDeleted)).length then
    modifyById s p.id (fun e =>
      { e with progress :=
          childrenProgressValue ((findDirectChildren p s).filter (fun t => !t.isDeleted)) })
  else s

/-- `updateParentProgress(tasks)`: process the non-deleted parents in
descending level order, bottom-up. -/
def updateParentProgress (tasks : List Task) : List Task :=
  (sortByLevelDesc (tasks.filter (fun t => !t.isDeleted && t.isParent))).foldl
    progressStep tasks

/-- The record update `updateParentDates` applies to a parent: minimum and
maximum of the children's set planned and actual dates (`null` when no
child has the date set) and recomputed durations when both ends exist. -/
def dateUpd (hol : Int → Bool) (children : List Task) (e : Task) : Task :=
  { e with
    startDate := listMinInt (children.filterMap Task.startDate)
    endDate := listMaxInt (children.filterMap Task.endDate)
    duration :=
      match listMinInt (children.filterMap Task.startDate),
          listMaxInt (children.filterMap Task.endDate) with
      | some a, some b => some (calculateDuration hol true a b)
      | _, _ => e.duration
    actualStartDate := listMinInt (children.filterMap Task.actualStartDate)
    actualEndDate := listMaxInt (children.filterMap Task.actualEndDate)
    actualDuration :=
      match listMinInt (children.filterMap Task.actualStartDate),
          listMaxInt (children.filterMap Task.actualEndDate) with
      | some a, some b => some (calculateDuration hol true a b)
      | _, _ => e.actualDuration }

/-- One iteration of the `updateParentDates` loop: recompute one parent's
planned and actual dates (and durations when both ends exist) from its
direct children in the current state. -/
def dateStep (hol : Int → Bool) (s : List Task) (p : Task) : List Task :=
  if p.isParent then
    if 0 < ((findDirectChildren p s).filter (fun t => !t.isDeleted)).length then
      modifyById s p.id
        (dateUpd hol ((findDirectChildren p s).filter (fun t => !t.isDeleted)))
    else s
  else s

/-- `updateParentDates(tasks)`: process the non-deleted tasks in
descending level order, bottom-up, updating those flagged as parents. -/
def updateParentDates (hol : Int → Bool) (tasks : List Task) : List Task :=
  (sortByLevelDesc (tasks.filter (fun t => !t.isDeleted))).foldl (dateStep hol) tasks

/-- Scenario E parent: a live parent task with label 1 whose stored progress
is 10 before recomputation. -/
def c5p : Task :=
  { id := ("P"), siNo := 1, wbsNo := ("1"), predecessorIds := none, level := 0,
    startDate := none, endDate := none, duration := none, actualStartDate := none,
    actualEndDate := none, actualDuration := none, progress := 10,
    isDeleted := false, isParent := true }

/-- Scenario E first child: label 1.1, progress 40. -/
def c5c1 : Task :=
  { id := ("CA"), siNo := 2, wbsNo := ("1.1"), predecessorIds := none, level := 1,
    startDate := none, endDate := none, duration := none, actualStartDate := none,
    actualEndDate := none, actualDuration := none, progress := 40,
    isDeleted := false, isParent := false }

/-- Scenario E second child: label 1.2, progress 80. -/
def c5c2 : Task :=
  { id := ("CB"), siNo := 3, wbsNo := ("1.2"), predecessorIds := none, level := 1,
    startDate := none, endDate := none, duration := none, actualStartDate := none,
    actualEndDate := none, actualDuration := none, progress := 80,
    isDeleted := false, isParent := false }

/-! ## Predecessor validation (`validatePredecessors`, `findAncestors`,
`detectCircularDependency` of `src/project/lib/taskUtils.ts`) -/

/-- The backward scan of `findAncestors`: walk the tasks above the task
(nearest first), keeping every task whose depth is strictly below the
current level and descending to that level.  (The source's `break` at
level 0 is redundant: no level is below 0.) -/
def ancestorsGo : List Task → Nat → List Task
  | [], _ => []
  | t :: rest, currentLevel =>
    if t.level < currentLevel then t :: ancestorsGo rest t.level
    else ancestorsGo rest currentLevel

/-- `findAncestors(tasks, task)`: the chain of containing tasks found by
scanning backwards from the task's position. -/
def findAncestors (tasks : List Task) (task : Task) : List Task :=
  if task.level == 0 then []
  else
    match tasks.findIdx? (fun t => t.id == task.id) with
    | none => []
    | some idx => ancestorsGo ((tasks.take idx).reverse) task.level

/-- Number of parsed predecessor references carried by one task (used only
to size the depth-first-search fuel). -/
def predsLen (t : Task) : Nat :=
  match t.predecessorIds with
  | none => 0
  | some s => (parsePredIds s).length

/-- Enough fuel for the cycle search: every processed frame either is
dropped or pushes the parsed predecessors of a not-yet-visited task, so the
total number of frames is bounded by the initial references plus all
references stored in the project. -/
def cycleFuel (tasks : List Task) (siNos : List Int) : Nat :=
  siNos.length + (tasks.map predsLen).sum + tasks.length + 1

/-- The `hasCycle` recursion of `detectCircularDependency`, written as an
explicit depth-first search: each stack frame carries the node and its own
copy of the path (the source copies the path per recursive call), while the
visited set is threaded globally (the source mutates one shared set).  A
frame whose node closes its path or reaches the edited task reports a
cycle; otherwise the node's stored predecessor references (skipped when
empty or the literal `0`) are pushed with the extended path. -/
def dfsCycle (tasks : List Task) (taskSiNo : Int) :
    Nat → List (Int × List Int) → List Int → Bool
  | 0, _, _ => false
  | _ + 1, [], _ => false
  | fuel + 1, (cur, path) :: stack, visited =>
    if path.contains cur then true
    else if visited.contains cur then dfsCycle tasks taskSiNo fuel stack visited
    else if cur == taskSiNo then true
    else
      match tasks.find? (fun t => !t.isDeleted && t.siNo == cur) with
      | none => dfsCycle tasks taskSiNo fuel stack (cur :: visited)
      | some currentTask =>
        match currentTask.predecessorIds with
        | none => dfsCycle tasks taskSiNo fuel stack (cur :: visited)
        | some preds =>
          if isEmptyS preds || preds == zeroS then
            dfsCycle tasks taskSiNo fuel stack (cur :: visited)
          else
            dfsCycle tasks taskSiNo fuel
              ((parsePredIds preds).map (fun p => (p, cur :: path)) ++ stack)
              (cur :: visited)

/-- `detectCircularDependency(tasks, taskId, predecessorIds)`: blank or
literal-`0` reference text never cycles; an unknown task id — or one whose
ordinal is 0, which the source's truthiness test conflates with absence —
never cycles; otherwise run the depth-first search from each parsed
reference. -/
def detectCircularDependency (tasks : List Task) (taskId : String)
    (predecessorIds : String) : Bool :=
  if isEmptyS (trimS predecessorIds) || predecessorIds == zeroS then false
  else
    match tasks.find? (fun t => t.id == taskId) with
    | none => false
    | some t =>
      if t.siNo == 0 then false
      else
        dfsCycle tasks t.siNo (cycleFuel tasks (parsePredIds predecessorIds))
          ((parsePredIds predecessorIds).map (fun n => (n, ([] : List Int)))) []

/-- The four error messages `validatePredecessors` can push, with the
ordinal lists the messages interpolate (the surrounding prose of each
message is fixed text). -/
inductive ValError where
  | invalidRefs (siNos : List Int)
  | selfReference
  | circular
  | ancestorRefs (siNos : List Int)
deriving DecidableEq

/-- `validatePredecessors(task, predecessorIds, tasks)`: blank text is
accepted outright; otherwise the parsed references are checked for
existence among non-deleted tasks, self-reference, cycles and
ancestor-references, accumulating one error per failed check.  There is no
special case for the literal `0`. -/
def validatePredecessors (task : Task) (predecessorIds : String)
    (tasks : List Task) : List ValError :=
  if isEmptyS (trimS predecessorIds) then []
  else
    let siNos := parsePredIds predecessorIds
    let invalidSiNos := siNos.filter
      (fun n => !(tasks.any (fun t => !t.isDeleted && t.siNo == n)))
    (if 0 < invalidSiNos.length then [ValError.invalidRefs invalidSiNos] else []) ++
    (if siNos.contains task.siNo then [ValError.selfReference] else []) ++
    (if detectCircularDependency tasks task.id predecessorIds then [ValError.circular]
      else []) ++
    (let ancestorSiNos := (findAncestors tasks task).map Task.siNo
     let ancestorDependencies := siNos.filter (fun n => ancestorSiNos.contains n)
     if 0 < ancestorDependencies.length then [ValError.ancestorRefs ancestorDependencies]
     else [])

/-! ## Indent and outdent (`updateTaskLevelsForIndent`,
`updateTaskLevelsForOutdent` of `src/project/lib/taskUtils.ts`).  The JS
functions `throw` on bad selections; the embedding returns
`Except String (List Task)`, so an `.error` result is a raised error with
the input list left unmodified. -/

/-- `Math.min(...)` over a list of naturals (`none` on the empty list,
where the JS spread yields `Infinity`). -/
def listMinNat (l : List Nat) : Option Nat :=
  l.foldl (fun acc x => match acc with | none => some x | some m => some (min m x)) none

/-- Ascending insertion (model of the numeric `sort((a, b) => a - b)`). -/
def insertNatAsc (n : Nat) : List Nat → List Nat
  | [] => [n]
  | m :: rest => if n ≤ m then n :: m :: rest else m :: insertNatAsc n rest

/-- Ascending sort of the selected indices. -/
def sortNatAsc : List Nat → List Nat
  | [] => []
  | n :: rest => insertNatAsc n (sortNatAsc rest)

/-- The contiguity check of the indent/outdent functions: every adjacent
pair of sorted indices differs by exactly one. -/
def isContiguousRun : List Nat → Bool
  | [] => true
  | [_] => true
  | a :: b :: rest => (b == a + 1) && isContiguousRun (b :: rest)

/-- `tasks.filter(t => !t.isDeleted)` — the visible tasks. -/
def visibleOf (tasks : List Task) : List Task := tasks.filter (fun t => !t.isDeleted)

/-- The visible tasks whose id is in the selection. -/
def selectedOf (tasks : List Task) (sel : List String) : List Task :=
  (visibleOf tasks).filter (fun t => sel.contains t.id)

/-- The sorted positions of the selected tasks inside the visible list.
(`findIndex` cannot miss here, as the selected tasks are drawn from the
visible list, so the JS `-1` case does not arise.) -/
def selectedIdxOf (tasks : List Task) (sel : List String) : List Nat :=
  sortNatAsc ((selectedOf tasks sel).map (fun task =>
    (visibleOf tasks).findIdx (fun t => t.id == task.id)))

/-- Error text for indenting the very first task. -/
def indentFirstErr : String := "Cannot indent the first task (no parent available)"

/-- Error text for a non-contiguous indent selection. -/
def indentContigErr : String := "Selected tasks must be contiguous for indent operations"

/-- Error text for outdenting a root-level task. -/
def outdentRootErr : String := "Cannot outdent tasks at root level"

/-- Error text for a non-contiguous outdent selection. -/
def outdentContigErr : String := "Selected tasks must be contiguous for outdent operations"

/-- `updateTaskLevelsForIndent(tasks, selectedIds)`: empty selection is a
no-op; selecting the first visible task or a non-contiguous run raises;
otherwise each selected task is deepened by one level, capped one below
the task just above the selection, and WBS labels are recomputed. -/
def updateTaskLevelsForIndent (tasks : List Task) (sel : List String) :
    Except String (List Task) :=
  if sel.isEmpty then .ok tasks
  else
    let selectedTasks := selectedOf tasks sel
    let selectedIndices := selectedIdxOf tasks sel
    if selectedIndices.contains 0 then .error indentFirstErr
    else if !(isContiguousRun selectedIndices) then .error indentContigErr
    else
      match selectedIndices with
      | [] => .ok (updateWbsNumbers tasks)
      | i0 :: _ =>
        match (visibleOf tasks).get? (i0 - 1) with
        | none => .ok (updateWbsNumbers tasks)
        | some parentTask =>
          .ok (updateWbsNumbers (selectedTasks.foldl (fun acc task =>
            modifyById acc task.id (fun e =>
              { e with level := min (e.level + 1) (parentTask.level + 1) })) tasks))

/-- `updateTaskLevelsForOutdent(tasks, selectedIds)`: empty selection is a
no-op; a selected root-level task or a non-contiguous run raises;
otherwise each selected task is shallowed by one level (floored at root)
and WBS labels are recomputed. -/
def updateTaskLevelsForOutdent (tasks : List Task) (sel : List String) :
    Except String (List Task) :=
  if sel.isEmpty then .ok tasks
  else
    let selectedTasks := selectedOf tasks sel
    let selectedIndices := selectedIdxOf tasks sel
    match listMinNat (selectedTasks.map Task.level) with
    | some 0 => .error outdentRootErr
    | _ =>
      if !(isContiguousRun selectedIndices) then .error outdentContigErr
      else
        .ok (updateWbsNumbers (selectedTasks.foldl (fun acc task =>
          modifyById acc task.id (fun e => { e with level := e.level - 1 })) tasks))

/-! ## `updateTask` (`src/project/services/ganttService.ts`) and
`updateDependentTasks` (`src/project/lib/taskUtils.ts`) -/

/-- First task of the indent/outdent probe: visible, root level. -/
def c8a : Task :=
  { id := ("E1"), siNo := 1, wbsNo := ("1"), predecessorIds := none, level := 0,
    startDate := none, endDate := none, duration := none, actualStartDate := none,
    actualEndDate := none, actualDuration := none, progress := 0,
    isDeleted := false, isParent := false }

/-- Second task of the indent/outdent probe: visible, one level deep. -/
def c8b : Task :=
  { id := ("E2"), siNo := 2, wbsNo := ("2"), predecessorIds := none, level := 1,
    startDate := none, endDate := none, duration := none, actualStartDate := none,
    actualEndDate := none, actualDuration := none, progress := 0,
    isDeleted := false, isParent := false }

/-- The reference set as the specification describes it: the literal `0`
is a sentinel for "no predecessors". -/
def specReferenceSet (txt : String) : List Int :=
  if trimS txt == zeroS then [] else parsePredIds txt

/-- The rejection condition as the specification words it: some reference
names no existing non-deleted task's ordinal, or the task's own ordinal,
or an ancestor's ordinal, or closes a dependency cycle — all over the
sentinel-aware reference set. -/
def specPredecessorRejects (tasks : List Task) (task : Task) (txt : String) : Prop :=
  (∃ n ∈ specReferenceSet txt, ¬ ∃ t ∈ tasks, t.isDeleted = false ∧ t.siNo = n) ∨
  task.siNo ∈ specReferenceSet txt ∨
  detectCircularDependency tasks task.id txt = true ∨
  (∃ n ∈ specReferenceSet txt, n ∈ (findAncestors tasks task).map Task.siNo)

/-- A lone root task with ordinal 1 used to probe the sentinel handling. -/
def c7t : Task :=
  { id := ("T1"), siNo := 1, wbsNo := ("1"), predecessorIds := none, level := 0,
    startDate := none, endDate := none, duration := none, actualStartDate := none,
    actualEndDate := none, actualDuration := none, progress := 0,
    isDeleted := false, isParent := false }

/-- Parent of the concrete date-derivation project: label 1, no planned
dates of its own. -/
def c6p : Task :=
  { id := ("DP"), siNo := 1, wbsNo := ("1"), predecessorIds := none, level := 0,
    startDate := none, endDate := none, duration := none, actualStartDate := none,
    actualEndDate := none, actualDuration := none, progress := 0,
    isDeleted := false, isParent := true }

/-- First child of the date-derivation project: planned days 10 to 12. -/
def c6c1 : Task :=
  { id := ("DA"), siNo := 2, wbsNo := ("1.1"), predecessorIds := none, level := 1,
    startDate := some 10, endDate := some 12, duration := some 3, actualStartDate := none,
    actualEndDate := none, actualDuration := none, progress := 0,
    isDeleted := false, isParent := false }

/-- Second child of the date-derivation project: planned days 5 to 20. -/
def c6c2 : Task :=
  { id := ("DB"), siNo := 3, wbsNo := ("1.2"), predecessorIds := none, level := 1,
    startDate := some 5, endDate := some 20, duration := some 16, actualStartDate := none,
    actualEndDate := none, actualDuration := none, progress := 0,
    isDeleted := false, isParent := false }

/-! ### Theorems -/

/-! ### Round-trip law (claim C1) -/

/-- Invariant of `endDateLoop`: when it returns `some e`, the interval
`(cur, e]` contains exactly `r` working days, `e` is a working day when
`r ≥ 1`, and `e = cur` when `r = 0`. -/
theorem endDateLoop_spec (hol : Int → Bool) :
    ∀ (fuel : Nat) (r : Nat) (cur e : Int),
      endDateLoop hol fuel cur r = some e →
      cur ≤ e ∧ countWorkingLen hol (cur + 1) (e - cur).toNat = r ∧
        (0 < r → hol e = false ∧ cur < e) ∧ (r = 0 → e = cur) := by
  intro fuel
  induction fuel with
  | zero =>
    intro r cur e h
    cases r with
    | zero =>
      simp only [endDateLoop, Option.some.injEq] at h
      subst h
      refine ⟨le_refl _, ?_, by omega, fun _ => rfl⟩
      simp [countWorkingLen]
    | succ r => simp [endDateLoop] at h
  | succ fuel ih =>
    intro r cur e h
    cases r with
    | zero =>
      simp only [endDateLoop, Option.some.injEq] at h
      subst h
      refine ⟨le_refl _, ?_, by omega, fun _ => rfl⟩
      simp [countWorkingLen]
    | succ r =>
      simp only [endDateLoop] at h
      by_cases hh : hol (cur + 1)
      · rw [if_pos hh] at h
        obtain ⟨h1, h2, h3, h4⟩ := ih (r + 1) (cur + 1) e h
        obtain ⟨h5a, h5b⟩ := h3 (Nat.succ_pos r)
        refine ⟨by omega, ?_, fun _ => ⟨h5a, by omega⟩, by intro hc; omega⟩
        have hlen : (e - cur).toNat = (e - (cur + 1)).toNat + 1 := by omega
        rw [hlen]
        simp only [countWorkingLen, hh, if_pos]
        omega
      · rw [if_neg hh] at h
        obtain ⟨h1, h2, h3, h4⟩ := ih r (cur + 1) e h
        have hol1 : hol (cur + 1) = false := by
          simp [hh]
        refine ⟨by omega, ?_, ?_, by intro hc; omega⟩
        · have hlen : (e - cur).toNat = (e - (cur + 1)).toNat + 1 := by omega
          rw [hlen]
          simp only [countWorkingLen, hol1, Bool.false_eq_true, if_false]
          omega
        · intro _
          rcases Nat.eq_zero_or_pos r with hr | hr
          · constructor
            · rw [h4 hr]
              exact hol1
            · have := h4 hr
              omega
          · exact ⟨(h3 hr).1, by omega⟩

/-- Splitting off the first day of the counting interval. -/
theorem countWorkingLen_succ_front (hol : Int → Bool) (a : Int) (len : Nat) :
    countWorkingLen hol a (len + 1) =
      (if hol a then 0 else 1) + countWorkingLen hol (a + 1) len := rfl

/-- **C1 (amended)**: the round-trip law of the date arithmetic holds
whenever the start date is a working day: for every calendar `hol`, start
`s` and duration `d ≥ 1`, if `calculateEndDate` (with holiday exclusion)
terminates with end date `e`, then `calculateDuration s e` (with holiday
exclusion) returns `d`.  (As stated in the spec — for arbitrary start
dates — the law fails; see the counterexample.) -/
theorem roundTrip_of_workingStart (hol : Int → Bool) (fuel : Nat) (s d e : Int)
    (hd : 1 ≤ d) (hs : hol s = false)
    (he : calculateEndDate hol true fuel s d = some e) :
    calculateDuration hol true s e = d := by
  by_cases h1 : d = 1
  · subst h1
    have he2 : s = e := by simpa [calculateEndDate] using he
    subst he2
    simp [calculateDuration]
  · have hd2 : 2 ≤ d := by omega
    simp only [calculateEndDate, if_neg h1] at he
    simp only [Bool.not_true, Bool.false_eq_true, if_false] at he
    obtain ⟨hle, hcount, hpos, _⟩ := endDateLoop_spec hol fuel (d - 1).toNat s e he
    have hr : 0 < (d - 1).toNat := by omega
    obtain ⟨_, hlt⟩ := hpos hr
    have hne : s ≠ e := by omega
    simp only [calculateDuration, if_neg hne]
    simp only [Bool.not_true, Bool.false_eq_true, if_false]
    have hlen : (e + 1 - s).toNat = (e - s).toNat + 1 := by omega
    rw [hlen]
    have hsplit : countWorkingLen hol s ((e - s).toNat + 1) =
        (if hol s then 0 else 1) + countWorkingLen hol (s + 1) (e - s).toNat := rfl
    rw [hsplit, hs, hcount]
    simp only [Bool.false_eq_true, if_false]
    omega

/-- Witness for `roundTrip_of_workingStart` at a concrete input: the empty
calendar, start 0, duration 3. -/
theorem roundTrip_of_workingStart_witness :
    calculateDuration (fun _ => false) true 0 2 = 3 :=
  roundTrip_of_workingStart (fun _ => false) 10 0 3 2 (by decide) rfl (by decide)

/-- **C1 (counterexample)**: the round-trip law as stated fails when the
start date is a holiday.  Under the calendar whose only holiday is day 0,
a task starting on day 0 with duration 2 ends on day 1, but the duration
computed back from `[0, 1]` is 1, not 2. -/
theorem roundTrip_counterexample :
    calculateEndDate holZero true 10 0 2 = some 1 ∧
      calculateDuration holZero true 0 1 = 1 ∧ (1 : Int) ≠ 2 := by
  refine ⟨by decide, by decide, by decide⟩

/-- `adjustDatesPlanned` never touches the start date. -/
theorem adjustDatesPlanned_startDate (hol : Int → Bool) (fuel : Nat) (t : TaskPatch) :
    (adjustDatesPlanned hol fuel t).startDate = t.startDate := by
  unfold adjustDatesPlanned
  split
  · rfl
  · split <;> (try split) <;> rfl

/-- `adjustDatesActual` never touches the start date. -/
theorem adjustDatesActual_startDate (hol : Int → Bool) (fuel : Nat) (t : TaskPatch) :
    (adjustDatesActual hol fuel t).startDate = t.startDate := by
  unfold adjustDatesActual
  split
  · rfl
  · split <;> (try split) <;> rfl

/-- `adjustDates` never touches the start date. -/
theorem adjustDates_startDate (hol : Int → Bool) (fuel : Nat) (t : TaskPatch) :
    (adjustDates hol fuel t).startDate = t.startDate := by
  unfold adjustDates
  rw [adjustDatesActual_startDate, adjustDatesPlanned_startDate]

/-- `adjustDatesActual` never touches the planned end date. -/
theorem adjustDatesActual_endDate (hol : Int → Bool) (fuel : Nat) (t : TaskPatch) :
    (adjustDatesActual hol fuel t).endDate = t.endDate := by
  unfold adjustDatesActual
  split
  · rfl
  · split <;> (try split) <;> rfl

/-- `adjustDatesActual` never touches the planned duration. -/
theorem adjustDatesActual_duration (hol : Int → Bool) (fuel : Nat) (t : TaskPatch) :
    (adjustDatesActual hol fuel t).duration = t.duration := by
  unfold adjustDatesActual
  split
  · rfl
  · split <;> (try split) <;> rfl

/-! ### The predecessor push rule (claims C2 and C9) -/

/-- **C2 (amended)**: for a task whose predecessor text is non-empty and not
the sentinel `"0"`, and whose referenced predecessors yield a maximum end
date `m`, `adjustTaskDatesWithPredecessors` sets the start date to `m + 1`
— one **calendar** day after `m`, with no reference to the work calendar —
exactly when the current start date is unset or not later than `m`, and
leaves the start date unchanged otherwise (the rule only pushes a start
forward, never pulls it earlier).  (The claim as stated — "plus one
*working* day" — fails; see the counterexample.) -/
theorem predecessorPush_amended (hol : Int → Bool) (fuel : Nat) (task : TaskPatch)
    (allTasks : List Task) (pid : String) (m : Int)
    (hpid : pval task.predecessorIds = some pid)
    (htrim : isEmptyS (trimS pid) = false)
    (hzero : (pid == zeroS) = false)
    (hmax : getMaxPredecessorEndDate allTasks pid = some m) :
    ((pval task.startDate = none ∨ ∃ st, pval task.startDate = some st ∧ st ≤ m) →
      pval (adjustTaskDatesWithPredecessors hol fuel task allTasks).startDate = some (m + 1)) ∧
    (∀ st, pval task.startDate = some st → m < st →
      pval (adjustTaskDatesWithPredecessors hol fuel task allTasks).startDate = some st) := by
  constructor
  · intro hfire
    have hfireb :
        (match pval task.startDate with
          | none => true
          | some st => decide (st ≤ m)) = true := by
      rcases hfire with h | ⟨st, hst, hle⟩
      · rw [h]
      · rw [hst]
        simpa using hle
    simp only [adjustTaskDatesWithPredecessors, hpid, htrim, hzero, Bool.or_self,
      Bool.false_eq_true, if_false, hmax, hfireb, if_true]
    rcases hd : pval task.duration with _ | d
    · rcases he : pval task.endDate with _ | ed <;>
        simp [hd, he, adjustDates_startDate, pval] <;>
        (repeat' split) <;> (try simp [pval])
    · rcases he : pval task.endDate with _ | ed <;>
        by_cases hdp : 0 < d <;>
        simp [hd, he, hdp, adjustDates_startDate, pval] <;>
        (repeat' split) <;> (try simp [pval])
  · intro st hst hgt
    have hfireb :
        (match pval task.startDate with
          | none => true
          | some st => decide (st ≤ m)) = false := by
      rw [hst]
      simpa using hgt
    have hst2 : task.startDate = some (some st) := by
      cases hx : task.startDate <;> simp [pval, hx] at hst <;> simp [hst]
    simp only [adjustTaskDatesWithPredecessors, hpid, htrim, hzero, Bool.or_self,
      Bool.false_eq_true, if_false, hmax, hfireb]
    (repeat' split) <;> simp [adjustDates_startDate, pval, hst2]

/-- Witness for `predecessorPush_amended`: with predecessor end 10 the
start becomes day 11. -/
theorem predecessorPush_amended_witness :
    pval (adjustTaskDatesWithPredecessors (fun _ => false) 10 wPatch [wPred]).startDate =
      some 11 := by
  have h := predecessorPush_amended (fun _ => false) 10 wPatch [wPred] oneS 10
    rfl (by decide) (by decide) (by decide)
  exact h.1 (Or.inl rfl)

/-- **C2 (counterexample)**: the claimed "plus one working day" fails.
With predecessor end date 10 under a calendar where day 11 is a holiday,
the assigned start date is day 11 — a holiday — whereas one working day
after day 10 is day 12. -/
theorem predecessorPush_counterexample :
    pval (adjustTaskDatesWithPredecessors holEleven 10 wPatch [wPred]).startDate = some 11 ∧
      holEleven 11 = true ∧ nextWorkingDay holEleven 10 10 = some 12 ∧ (11 : Int) ≠ 12 := by
  refine ⟨by decide, by decide, by decide, by decide⟩

/-- **C9 (confirmed)**: when the predecessor rule fires (maximum predecessor
end date `m`, current start unset or `≤ m`), the date fields are completed
as the claim states: a positive existing duration is kept and the end date
recomputed from `(m + 1, duration)`; otherwise an existing end date `ed`
determines the new duration (inclusive day count `max 1 (ed - (m+1) + 1)`);
otherwise duration defaults to 1 and the end date equals the new start. -/
theorem predecessorDates_branches (hol : Int → Bool) (fuel : Nat) (task : TaskPatch)
    (allTasks : List Task) (pid : String) (m : Int)
    (hpid : pval task.predecessorIds = some pid)
    (htrim : isEmptyS (trimS pid) = false)
    (hzero : (pid == zeroS) = false)
    (hmax : getMaxPredecessorEndDate allTasks pid = some m)
    (hfire : pval task.startDate = none ∨ ∃ st, pval task.startDate = some st ∧ st ≤ m) :
    (∀ d, pval task.duration = some d → 0 < d →
      pval (adjustTaskDatesWithPredecessors hol fuel task allTasks).duration = some d ∧
      pval (adjustTaskDatesWithPredecessors hol fuel task allTasks).endDate =
        calculateEndDate hol true fuel (m + 1) d) ∧
    (∀ ed, (pval task.duration = none ∨ ∃ d, pval task.duration = some d ∧ d ≤ 0) →
      pval task.endDate = some ed →
      pval (adjustTaskDatesWithPredecessors hol fuel task allTasks).duration =
        some (max 1 ((ed - (m + 1)) + 1))) ∧
    ((pval task.duration = none ∨ ∃ d, pval task.duration = some d ∧ d ≤ 0) →
      pval task.endDate = none →
      pval (adjustTaskDatesWithPredecessors hol fuel task allTasks).duration = some 1 ∧
      pval (adjustTaskDatesWithPredecessors hol fuel task allTasks).endDate = some (m + 1)) := by
  have hfireb :
      (match pval task.startDate with
        | none => true
        | some st => decide (st ≤ m)) = true := by
    rcases hfire with h | ⟨st, hst, hle⟩
    · rw [h]
    · rw [hst]
      simpa using hle
  refine ⟨?_, ?_, ?_⟩
  · intro d hd hdp
    have hdp2 : ¬ d = 0 := by omega
    simp only [adjustTaskDatesWithPredecessors, hpid, htrim, hzero, Bool.or_self,
      Bool.false_eq_true, if_false, hmax, hfireb, if_true, hd, hdp, if_pos]
    rcases hce : calculateEndDate hol true fuel (m + 1) d with _ | e <;>
      simp only [adjustDates, adjustDatesActual_duration, adjustDatesActual_endDate] <;>
      (repeat' split) <;>
      simp_all [adjustDatesPlanned, pval, hce, hdp2]
  · intro ed hdz he
    have he2 : task.endDate = some (some ed) := by
      cases hx : task.endDate <;> simp [pval, hx] at he <;> simp [he]
    have hpos : ¬ (max 1 ((ed - (m + 1)) + 1)) = 0 := by
      have := le_max_left (1 : Int) ((ed - (m + 1)) + 1)
      omega
    rcases hdz with hdn | ⟨d, hd, hle⟩
    · simp only [adjustTaskDatesWithPredecessors, hpid, htrim, hzero, Bool.or_self,
        Bool.false_eq_true, if_false, hmax, hfireb, if_true, hdn, he]
      simp only [adjustDates, adjustDatesActual_duration]
      (repeat' split) <;> simp_all [adjustDatesPlanned, pval, he2, hpos]
    · have hnp : ¬ 0 < d := by omega
      simp only [adjustTaskDatesWithPredecessors, hpid, htrim, hzero, Bool.or_self,
        Bool.false_eq_true, if_false, hmax, hfireb, if_true, hd, he]
      simp only [hnp, if_false]
      simp only [adjustDates, adjustDatesActual_duration]
      (repeat' split) <;> simp_all [adjustDatesPlanned, pval, he2, hpos]
  · intro hdz he
    have he2 : task.endDate = none ∨ task.endDate = some none := by
      cases hx : task.endDate with
      | none => exact Or.inl rfl
      | some y =>
        cases y with
        | none => exact Or.inr rfl
        | some v => simp [pval, hx] at he
    rcases hdz with hdn | ⟨d, hd, hle⟩
    · simp only [adjustTaskDatesWithPredecessors, hpid, htrim, hzero, Bool.or_self,
        Bool.false_eq_true, if_false, hmax, hfireb, if_true, hdn, he]
      simp only [adjustDates, adjustDatesActual_duration, adjustDatesActual_endDate]
      (repeat' split) <;> simp_all [adjustDatesPlanned, pval, calculateEndDate]
    · have hnp : ¬ 0 < d := by omega
      simp only [adjustTaskDatesWithPredecessors, hpid, htrim, hzero, Bool.or_self,
        Bool.false_eq_true, if_false, hmax, hfireb, if_true, hd, he]
      simp only [hnp, if_false]
      simp only [adjustDates, adjustDatesActual_duration, adjustDatesActual_endDate]
      (repeat' split) <;> simp_all [adjustDatesPlanned, pval, calculateEndDate]

/-- `intRange` has the requested length. -/
theorem intRange_length (s : Int) (len : Nat) : (intRange s len).length = len := by
  induction len generalizing s with
  | zero => rfl
  | succ n ih => simp [intRange, ih]

/-! ### Ordinal density (claim C3) -/

/-- Membership in an ordinal insertion. -/
theorem mem_insertBySiNo {x t : Task} {l : List Task} :
    x ∈ insertBySiNo t l ↔ x = t ∨ x ∈ l := by
  induction l with
  | nil => simp [insertBySiNo]
  | cons u rest ih =>
    by_cases h : t.siNo ≤ u.siNo
    · simp [insertBySiNo, h]
    · simp [insertBySiNo, h, ih]
      tauto

/-- Sorting by ordinal preserves membership. -/
theorem mem_sortBySiNo {x : Task} {l : List Task} :
    x ∈ sortBySiNo l ↔ x ∈ l := by
  induction l with
  | nil => simp [sortBySiNo]
  | cons t rest ih => simp [sortBySiNo, mem_insertBySiNo, ih]

/-- The rewritten task of `renumberGo` keeps its deletion flag. -/
theorem renumberedTask_isDeleted (sorted : List Task) (del : List Int)
    (task : Task) (n : Int) :
    (renumberedTask sorted del task n).isDeleted = task.isDeleted := by
  simp only [renumberedTask]
  split <;> (try split) <;> rfl

/-- The rewritten task of `renumberGo` carries the assigned ordinal. -/
theorem renumberedTask_siNo (sorted : List Task) (del : List Int)
    (task : Task) (n : Int) :
    (renumberedTask sorted del task n).siNo = n := by
  simp only [renumberedTask]
  split <;> (try split) <;> rfl

/-- Density of `renumberGo`: given that every ordinal in the deleted set
belongs to a tombstoned task, the surviving (non-deleted) tasks of the
output carry exactly the consecutive ordinals starting at `n`. -/
theorem renumberGo_density (sorted : List Task) (del : List Int) :
    ∀ (l : List Task) (n : Int),
      (∀ t ∈ l, del.contains t.siNo = true → t.isDeleted = true) →
      ((renumberGo sorted del l n).filter (fun t => !t.isDeleted)).map Task.siNo =
        intRange n ((l.filter (fun t => !t.isDeleted)).length) := by
  intro l
  induction l with
  | nil => intro n _; simp [renumberGo, intRange]
  | cons t rest ih =>
    intro n h
    have hrest : ∀ u ∈ rest, del.contains u.siNo = true → u.isDeleted = true :=
      fun u hu => h u (List.mem_cons_of_mem t hu)
    by_cases hd : t.isDeleted
    · simp only [renumberGo, hd, Bool.true_or, if_true]
      rw [List.filter_cons_of_neg (by simp [hd]), List.filter_cons_of_neg (by simp [hd])]
      exact ih n hrest
    · have hc : del.contains t.siNo = false := by
        by_contra hcc
        have := h t (List.mem_cons_self t rest) (by simpa using hcc)
        simp [this] at hd
      have hdb : t.isDeleted = false := by simp [hd]
      simp only [renumberGo, hdb, hc, Bool.or_self, Bool.false_eq_true, if_false]
      rw [List.filter_cons_of_pos (by rw [renumberedTask_isDeleted]; simp [hdb]),
        List.filter_cons_of_pos (by simp [hdb])]
      simp only [List.map_cons, renumberedTask_siNo, List.length_cons]
      rw [ih (n + 1) hrest]
      rfl

/-- Witness for `predecessorDates_branches`: a task with duration 3 and
predecessor end 10 gets start 11, keeps duration 3, and ends on day 13. -/
theorem predecessorDates_branches_witness :
    pval (adjustTaskDatesWithPredecessors (fun _ => false) 10
        { wPatch with duration := some (some 3) } [wPred]).duration = some 3 ∧
    pval (adjustTaskDatesWithPredecessors (fun _ => false) 10
        { wPatch with duration := some (some 3) } [wPred]).endDate = some 13 := by
  have h := predecessorDates_branches (fun _ => false) 10
    { wPatch with duration := some (some 3) } [wPred] oneS 10
    rfl (by decide) (by decide) (by decide) (Or.inl rfl)
  obtain ⟨h1, h2⟩ := h.1 3 rfl (by decide)
  refine ⟨h1, ?_⟩
  rw [h2]
  decide

/-- Mapping a projection over a mapped list, when the map preserves the
projection. -/
theorem map_map_proj {β : Type} (l : List Task) (f : Task → Task) (g : Task → β)
    (h : ∀ t, g (f t) = g t) : (l.map f).map g = l.map g := by
  induction l with
  | nil => rfl
  | cons t rest ih => simp only [List.map_cons, h, ih]

/-- `updatePredecessorsAfterMove` keeps every ordinal. -/
theorem updatePredecessorsAfterMove_map_siNo (l : List Task) (m : List (String × Int)) :
    (updatePredecessorsAfterMove l m).map Task.siNo = l.map Task.siNo := by
  simp only [updatePredecessorsAfterMove]
  apply map_map_proj
  intro t
  dsimp only
  split <;> rfl

/-- `updatePredecessorsAfterMove` keeps every deletion flag. -/
theorem updatePredecessorsAfterMove_map_isDeleted (l : List Task) (m : List (String × Int)) :
    (updatePredecessorsAfterMove l m).map Task.isDeleted = l.map Task.isDeleted := by
  simp only [updatePredecessorsAfterMove]
  apply map_map_proj
  intro t
  dsimp only
  split <;> rfl

/-- `updateWbsNumbers` keeps every ordinal. -/
theorem updateWbsNumbers_map_siNo (l : List Task) :
    (updateWbsNumbers l).map Task.siNo = l.map Task.siNo := by
  simp only [updateWbsNumbers]
  apply map_map_proj
  intro t
  dsimp only
  split
  · rfl
  · split <;> rfl

/-- `updateWbsNumbers` keeps every deletion flag. -/
theorem updateWbsNumbers_map_isDeleted (l : List Task) :
    (updateWbsNumbers l).map Task.isDeleted = l.map Task.isDeleted := by
  simp only [updateWbsNumbers]
  apply map_map_proj
  intro t
  dsimp only
  split
  · rfl
  · split <;> rfl

/-- The sequential renumbering assigns consecutive ordinals. -/
theorem renumberSeq_map_siNo (l : List Task) (n : Int) :
    (renumberSeq l n).map Task.siNo = intRange n l.length := by
  induction l generalizing n with
  | nil => rfl
  | cons t rest ih => simp only [renumberSeq, List.map_cons, List.length_cons, intRange, ih]

/-- The sequential renumbering keeps every deletion flag. -/
theorem renumberSeq_map_isDeleted (l : List Task) (n : Int) :
    (renumberSeq l n).map Task.isDeleted = l.map Task.isDeleted := by
  induction l generalizing n with
  | nil => rfl
  | cons t rest ih => simp only [renumberSeq, List.map_cons, ih]

/-- Everything `findAllChildTasks` returns is in the task list. -/
theorem findAllChildTasks_subset {x : Task} {tasks : List Task} {t : Task}
    (hx : x ∈ findAllChildTasks tasks t) : x ∈ tasks := by
  unfold findAllChildTasks at hx
  split at hx
  · exact absurd hx (List.not_mem_nil x)
  · have h1 := List.mem_of_mem_filter hx
    have h2 := (List.takeWhile_sublist _).subset h1
    exact (List.drop_sublist _ _).subset h2

/-- Everything `findSiblingTasks` returns is in the task list (given the
task itself is). -/
theorem findSiblingTasks_subset {x : Task} {tasks : List Task} {t : Task}
    (ht : t ∈ tasks) (hx : x ∈ findSiblingTasks tasks t) : x ∈ tasks := by
  simp only [findSiblingTasks] at hx
  split at hx
  · exact List.mem_of_mem_filter hx
  · split at hx
    · have : x = t := by simpa using hx
      rw [this]
      exact ht
    · have h1 := List.mem_of_mem_filter hx
      have h2 := List.mem_of_mem_filter h1
      have h3 := (List.takeWhile_sublist _).subset h2
      exact (List.drop_sublist _ _).subset h3

/-- Density of the renumber-remap-relabel pipeline of the move operations:
when every task of the reassembled list is non-deleted, the ordinals of the
non-deleted output tasks are exactly `1..N`. -/
theorem movePipeline_density (nt : List Task) (m : List (String × Int))
    (hall : ∀ x ∈ nt, x.isDeleted = false) :
    ((updateWbsNumbers (updatePredecessorsAfterMove (renumberSeq nt 1) m)).filter
      (fun t => !t.isDeleted)).map Task.siNo =
    intRange 1 (((updateWbsNumbers (updatePredecessorsAfterMove (renumberSeq nt 1) m)).filter
      (fun t => !t.isDeleted)).length) := by
  have h1 : (updateWbsNumbers (updatePredecessorsAfterMove (renumberSeq nt 1) m)).map
      Task.isDeleted = nt.map Task.isDeleted := by
    rw [updateWbsNumbers_map_isDeleted, updatePredecessorsAfterMove_map_isDeleted,
      renumberSeq_map_isDeleted]
  have h2 : (updateWbsNumbers (updatePredecessorsAfterMove (renumberSeq nt 1) m)).map
      Task.siNo = intRange 1 nt.length := by
    rw [updateWbsNumbers_map_siNo, updatePredecessorsAfterMove_map_siNo, renumberSeq_map_siNo]
  have hlen : (updateWbsNumbers (updatePredecessorsAfterMove (renumberSeq nt 1) m)).length =
      nt.length := by
    have := congrArg List.length h1
    simpa using this
  have hdel : ∀ x ∈ updateWbsNumbers (updatePredecessorsAfterMove (renumberSeq nt 1) m),
      x.isDeleted = false := by
    intro x hx
    have hmem := List.mem_map_of_mem Task.isDeleted hx
    rw [h1] at hmem
    obtain ⟨y, hy, hxy⟩ := List.mem_map.mp hmem
    rw [← hxy]
    exact hall y hy
  have hfe : (updateWbsNumbers (updatePredecessorsAfterMove (renumberSeq nt 1) m)).filter
      (fun t => !t.isDeleted) =
      updateWbsNumbers (updatePredecessorsAfterMove (renumberSeq nt 1) m) :=
    List.filter_eq_self.mpr (fun a ha => by simp [hdel a ha])
  rw [hfe, h2, hlen]

/-- Density of `moveTaskUpCore` on a tombstone-free list. -/
theorem moveTaskUpCore_density (tasks : List Task) (task prev : Task)
    (hall : ∀ t ∈ tasks, t.isDeleted = false)
    (htask : task ∈ tasks) (hprev : prev ∈ tasks) :
    ((moveTaskUpCore tasks task prev).filter (fun t => !t.isDeleted)).map Task.siNo =
      intRange 1 (((moveTaskUpCore tasks task prev).filter (fun t => !t.isDeleted)).length) := by
  simp only [moveTaskUpCore]
  apply movePipeline_density
  intro x hx
  rcases List.mem_append.mp hx with hx1 | hx4
  · rcases List.mem_append.mp hx1 with hx2 | hx3
    · rcases List.mem_append.mp hx2 with hx5 | hx6
      · exact hall x (List.filter_subset' tasks (List.take_subset _ _ hx5))
      · rcases List.mem_cons.mp hx6 with heq | hx7
        · rw [heq]; exact hall task htask
        · exact hall x (findAllChildTasks_subset hx7)
    · rcases List.mem_cons.mp hx3 with heq | hx8
      · rw [heq]; exact hall prev hprev
      · exact hall x (findAllChildTasks_subset hx8)
  · exact hall x (List.filter_subset' tasks (List.drop_subset _ _ hx4))

/-- **C3 (amended)**: ordinal density holds for deletion renumbering and —
on tombstone-free lists — for block moves.  Part 1: for
`updateSiNumbersAfterDeletion`, provided every ordinal of the deleted set
belongs to an already-tombstoned task (as the delete operations guarantee,
marking tasks deleted before renumbering), the ordinals of the non-deleted
output tasks are exactly `1..N`.  Part 2: `moveTaskUp` preserves density
when the list holds no tombstoned task; with tombstones present it does not
(see the counterexample), because the move renumbers every record by raw
list position, handing ordinals to deleted tasks as well. -/
theorem ordinalDensity_amended :
    (∀ (tasks : List Task) (del : List Int),
      (∀ t ∈ tasks, del.contains t.siNo = true → t.isDeleted = true) →
      ((updateSiNumbersAfterDeletion tasks del).filter (fun t => !t.isDeleted)).map Task.siNo =
        intRange 1
          (((updateSiNumbersAfterDeletion tasks del).filter (fun t => !t.isDeleted)).length)) ∧
    (∀ (tasks : List Task) (taskId : String),
      (∀ t ∈ tasks, t.isDeleted = false) →
      ((tasks.filter (fun t => !t.isDeleted)).map Task.siNo =
        intRange 1 ((tasks.filter (fun t => !t.isDeleted)).length)) →
      ((moveTaskUp tasks taskId).filter (fun t => !t.isDeleted)).map Task.siNo =
        intRange 1 (((moveTaskUp tasks taskId).filter (fun t => !t.isDeleted)).length)) := by
  constructor
  · intro tasks del h
    have hs : ∀ t ∈ sortBySiNo tasks, del.contains t.siNo = true → t.isDeleted = true :=
      fun t ht => h t (mem_sortBySiNo.mp ht)
    have hd := renumberGo_density (sortBySiNo tasks) del (sortBySiNo tasks) 1 hs
    unfold updateSiNumbersAfterDeletion
    rw [hd]
    have hlen :
        ((renumberGo (sortBySiNo tasks) del (sortBySiNo tasks) 1).filter
          (fun t => !t.isDeleted)).length =
        ((sortBySiNo tasks).filter (fun t => !t.isDeleted)).length := by
      have := congrArg List.length hd
      simpa [intRange_length] using this
    rw [hlen]
  · intro tasks taskId hall hdense
    unfold moveTaskUp
    split
    · exact hdense
    · split
      · exact hdense
      · split
        · exact hdense
        · split
          · exact hdense
          · split
            · exact hdense
            · split
              · exact hdense
              · rename_i s1 i1 he1 h1 s2 task hget s3 siblingIndex he3 h2 s4 prev hsget
                have htask : task ∈ tasks := List.get?_mem hget
                have hprev : prev ∈ tasks := by
                  have hmem := List.get?_mem hsget
                  exact findSiblingTasks_subset htask hmem
                exact moveTaskUpCore_density tasks task prev hall htask hprev

/-- **C3 (counterexample)**: moving task C (ordinal 3) up past B (ordinal 2)
while a tombstoned task D sits in the list gives the survivors the ordinals
`{1, 3, 4}` — the deleted task received ordinal 2 — even though the input
satisfied the density invariant.  So ordinal density does *not* hold after
every public mutating operation. -/
theorem ordinalDensity_counterexample :
    (([mvA, mvD, mvB, mvC].filter (fun t => !t.isDeleted)).map Task.siNo =
      intRange 1 (([mvA, mvD, mvB, mvC].filter (fun t => !t.isDeleted)).length)) ∧
    ((moveTaskUp [mvA, mvD, mvB, mvC] mvCId).filter (fun t => !t.isDeleted)).map Task.siNo =
      [1, 3, 4] ∧
    intRange 1
      (((moveTaskUp [mvA, mvD, mvB, mvC] mvCId).filter (fun t => !t.isDeleted)).length) =
      [1, 2, 3] ∧
    ([1, 3, 4] : List Int) ≠ [1, 2, 3] := by
  refine ⟨by decide, by decide, by decide, by decide⟩

/-- Witness for `ordinalDensity_amended` (part 1) at a concrete input. -/
theorem ordinalDensity_amended_witness :
    ((updateSiNumbersAfterDeletion [dA, dB, dC] [2]).filter (fun t => !t.isDeleted)).map
      Task.siNo =
    intRange 1
      (((updateSiNumbersAfterDeletion [dA, dB, dC] [2]).filter (fun t => !t.isDeleted)).length) :=
  ordinalDensity_amended.1 [dA, dB, dC] [2] (by decide)

/-- The rewritten task of `renumberGo` keeps its id. -/
theorem renumberedTask_id (sorted : List Task) (del : List Int)
    (task : Task) (n : Int) :
    (renumberedTask sorted del task n).id = task.id := by
  simp only [renumberedTask]
  split <;> (try split) <;> rfl

/-- Projections of `c4t1`. -/
theorem c4t1_id (p : Option String) : (c4t1 p).id = aId := rfl

/-- Projections of `c4t3`. -/
theorem c4t3_id (p : Option String) : (c4t3 p).id = cId := rfl

/-- `find?` by ordinal returns tasks with the same deletion flag on lists
that agree on the `(siNo, isDeleted)` projections. -/
theorem find?_bySiNo_proj : ∀ (s1 s2 : List Task) (n : Int),
    s1.map (fun t => (t.siNo, t.isDeleted)) = s2.map (fun t => (t.siNo, t.isDeleted)) →
    Option.map Task.isDeleted (s1.find? (fun t => t.siNo == n)) =
      Option.map Task.isDeleted (s2.find? (fun t => t.siNo == n)) := by
  intro s1
  induction s1 with
  | nil =>
    intro s2 n h
    cases s2 with
    | nil => rfl
    | cons u r2 => simp at h
  | cons t r1 ih =>
    intro s2 n h
    cases s2 with
    | nil => simp at h
    | cons u r2 =>
      simp only [List.map_cons, List.cons.injEq, Prod.mk.injEq] at h
      obtain ⟨⟨hsi, hdel⟩, htail⟩ := h
      simp only [List.find?]
      rw [hsi]
      by_cases hc : u.siNo == n
      · simp only [hc]
        simp [hdel]
      · simp only [Bool.not_eq_true] at hc
        simp only [hc]
        exact ih r2 n htail

/-- `findIdx` by ordinal agrees on lists that agree on the
`(siNo, isDeleted)` projections. -/
theorem findIdx_bySiNo_proj : ∀ (s1 s2 : List Task) (n : Int),
    s1.map (fun t => (t.siNo, t.isDeleted)) = s2.map (fun t => (t.siNo, t.isDeleted)) →
    s1.findIdx (fun t => t.siNo == n) = s2.findIdx (fun t => t.siNo == n) := by
  intro s1
  induction s1 with
  | nil =>
    intro s2 n h
    cases s2 with
    | nil => rfl
    | cons u r2 => simp at h
  | cons t r1 ih =>
    intro s2 n h
    cases s2 with
    | nil => simp at h
    | cons u r2 =>
      simp only [List.map_cons, List.cons.injEq, Prod.mk.injEq] at h
      obtain ⟨⟨hsi, hdel⟩, htail⟩ := h
      rw [List.findIdx_cons, List.findIdx_cons, hsi, ih r2 n htail]

/-- `renumberPredToken` only reads the `(siNo, isDeleted)` projections of
the sorted list. -/
theorem renumberPredToken_congr (s1 s2 : List Task) (del : List Int) (tok : String)
    (h : s1.map (fun t => (t.siNo, t.isDeleted)) = s2.map (fun t => (t.siNo, t.isDeleted))) :
    renumberPredToken s1 del tok = renumberPredToken s2 del tok := by
  unfold renumberPredToken
  cases hp : parseIntM (trimS tok) with
  | none => rfl
  | some n =>
    split
    · rfl
    · rename_i sd heq
      injection heq with hnsd
      subst hnsd
      split
      · rfl
      · have hf := find?_bySiNo_proj s1 s2 n h
        have hi := findIdx_bySiNo_proj s1 s2 n h
        cases hf1 : s1.find? (fun t => t.siNo == n) with
        | none =>
          cases hf2 : s2.find? (fun t => t.siNo == n) with
          | none => rfl
          | some u => rw [hf1, hf2] at hf; simp at hf
        | some v =>
          cases hf2 : s2.find? (fun t => t.siNo == n) with
          | none => rw [hf1, hf2] at hf; simp at hf
          | some u =>
            rw [hf1, hf2] at hf
            simp only [Option.map_some', Option.some.injEq] at hf
            simp [hf, hi]

/-- `renumberedTask` only reads the `(siNo, isDeleted)` projections of the
sorted list. -/
theorem renumberedTask_congr (s1 s2 : List Task) (del : List Int) (task : Task) (n : Int)
    (h : ∀ tok, renumberPredToken s1 del tok = renumberPredToken s2 del tok) :
    renumberedTask s1 del task n = renumberedTask s2 del task n := by
  have hfun : renumberPredToken s1 del = renumberPredToken s2 del := funext h
  simp only [renumberedTask, hfun]

/-- **C4 (confirmed)**: with three non-deleted depth-0 tasks of ordinals
1, 2, 3, tombstoning ordinal 2 and renumbering with deleted set `{2}`
reassigns the survivors the ordinals 1 and 2 in their existing order; a
surviving predecessor text `"3"` is rewritten to `"2"`, and a reference to
the deleted ordinal 2 is dropped (the emptied list becomes `null`). -/
theorem deletionScenario (p1 p3 : Option String) :
    ((updateSiNumbersAfterDeletion [c4t1 p1, c4t2, c4t3 p3] [2]).filter
        (fun t => !t.isDeleted)).map Task.id = [aId, cId] ∧
    ((updateSiNumbersAfterDeletion [c4t1 p1, c4t2, c4t3 p3] [2]).filter
        (fun t => !t.isDeleted)).map Task.siNo = [1, 2] ∧
    (p3 = some threeS →
      ((updateSiNumbersAfterDeletion [c4t1 p1, c4t2, c4t3 p3] [2]).find?
        (fun t => t.id == cId)).map Task.predecessorIds = some (some twoS)) ∧
    (p3 = some twoS →
      ((updateSiNumbersAfterDeletion [c4t1 p1, c4t2, c4t3 p3] [2]).find?
        (fun t => t.id == cId)).map Task.predecessorIds = some none) ∧
    (p1 = some threeS →
      ((updateSiNumbersAfterDeletion [c4t1 p1, c4t2, c4t3 p3] [2]).find?
        (fun t => t.id == aId)).map Task.predecessorIds = some (some twoS)) ∧
    (p1 = some twoS →
      ((updateSiNumbersAfterDeletion [c4t1 p1, c4t2, c4t3 p3] [2]).find?
        (fun t => t.id == aId)).map Task.predecessorIds = some none) := by
  have hout : updateSiNumbersAfterDeletion [c4t1 p1, c4t2, c4t3 p3] [2] =
      [renumberedTask [c4t1 p1, c4t2, c4t3 p3] [2] (c4t1 p1) 1, c4t2,
        renumberedTask [c4t1 p1, c4t2, c4t3 p3] [2] (c4t3 p3) 2] := rfl
  refine ⟨?_, ?_, ?_, ?_, ?_, ?_⟩
  · rw [hout]
    simp [renumberedTask_isDeleted, renumberedTask_id, c4t1, c4t2, c4t3, mkTask]
  · rw [hout]
    simp [renumberedTask_isDeleted, renumberedTask_siNo, c4t1, c4t2, c4t3, mkTask]
  · intro h
    subst h
    rw [hout]
    rw [List.find?_cons_of_neg _ (by rw [renumberedTask_id, c4t1_id]; decide),
      List.find?_cons_of_neg _ (by decide),
      List.find?_cons_of_pos _ (by rw [renumberedTask_id, c4t3_id]; decide)]
    rw [renumberedTask_congr [c4t1 p1, c4t2, c4t3 (some threeS)] [c4t1 none, c4t2, c4t3 none] [2] (c4t3 (some threeS)) 2
      (fun tok => renumberPredToken_congr [c4t1 p1, c4t2, c4t3 (some threeS)] [c4t1 none, c4t2, c4t3 none] [2] tok rfl)]
    decide
  · intro h
    subst h
    rw [hout]
    rw [List.find?_cons_of_neg _ (by rw [renumberedTask_id, c4t1_id]; decide),
      List.find?_cons_of_neg _ (by decide),
      List.find?_cons_of_pos _ (by rw [renumberedTask_id, c4t3_id]; decide)]
    rw [renumberedTask_congr [c4t1 p1, c4t2, c4t3 (some twoS)] [c4t1 none, c4t2, c4t3 none] [2] (c4t3 (some twoS)) 2
      (fun tok => renumberPredToken_congr [c4t1 p1, c4t2, c4t3 (some twoS)] [c4t1 none, c4t2, c4t3 none] [2] tok rfl)]
    decide
  · intro h
    subst h
    rw [hout]
    rw [List.find?_cons_of_pos _ (by rw [renumberedTask_id, c4t1_id]; decide)]
    rw [renumberedTask_congr [c4t1 (some threeS), c4t2, c4t3 p3] [c4t1 none, c4t2, c4t3 none] [2] (c4t1 (some threeS)) 1
      (fun tok => renumberPredToken_congr [c4t1 (some threeS), c4t2, c4t3 p3] [c4t1 none, c4t2, c4t3 none] [2] tok rfl)]
    decide
  · intro h
    subst h
    rw [hout]
    rw [List.find?_cons_of_pos _ (by rw [renumberedTask_id, c4t1_id]; decide)]
    rw [renumberedTask_congr [c4t1 (some twoS), c4t2, c4t3 p3] [c4t1 none, c4t2, c4t3 none] [2] (c4t1 (some twoS)) 1
      (fun tok => renumberPredToken_congr [c4t1 (some twoS), c4t2, c4t3 p3] [c4t1 none, c4t2, c4t3 none] [2] tok rfl)]
    decide

/-- Witness for `deletionScenario` at the concrete predecessor texts
`"2"` (task 1) and `"3"` (task 3). -/
theorem deletionScenario_witness :
    ((updateSiNumbersAfterDeletion [c4t1 (some twoS), c4t2, c4t3 (some threeS)] [2]).filter
        (fun t => !t.isDeleted)).map Task.siNo = [1, 2] ∧
    ((updateSiNumbersAfterDeletion [c4t1 (some twoS), c4t2, c4t3 (some threeS)] [2]).find?
        (fun t => t.id == cId)).map Task.predecessorIds = some (some twoS) ∧
    ((updateSiNumbersAfterDeletion [c4t1 (some twoS), c4t2, c4t3 (some threeS)] [2]).find?
        (fun t => t.id == aId)).map Task.predecessorIds = some none := by
  have h := deletionScenario (some twoS) (some threeS)
  exact ⟨h.2.1, h.2.2.1 rfl, h.2.2.2.2.2 rfl⟩

/-! ### Frame lemmas for the aggregation folds (claims C5 and C6) -/

/-- `modifyById` on a cons. -/
theorem modifyById_cons (x : Task) (rest : List Task) (i : String) (f : Task → Task) :
    modifyById (x :: rest) i f =
      if (x.id == i) = true then f x :: rest else x :: modifyById rest i f := by
  unfold modifyById
  rw [List.findIdx?_cons, List.findIdx?_succ]
  by_cases h : (x.id == i) = true
  · simp [h, listModify]
  · simp only [h, Bool.false_eq_true, if_false]
    cases hr : rest.findIdx? (fun t => t.id == i) with
    | none => simp
    | some k => simp [listModify]

/-- `entryById` on a cons. -/
theorem entryById_cons (x : Task) (rest : List Task) (j : String) :
    entryById (x :: rest) j = if (x.id == j) = true then some x else entryById rest j := by
  cases h : (x.id == j) <;> simp [entryById, List.find?, h]

/-- Entries with other ids survive `modifyById` (for id-preserving
updates). -/
theorem entryById_modifyById_ne (f : Task → Task) (hf : ∀ x, (f x).id = x.id)
    (i j : String) (hne : ¬ j = i) :
    ∀ s : List Task, entryById (modifyById s i f) j = entryById s j := by
  intro s
  induction s with
  | nil => rfl
  | cons x rest ih =>
    rw [modifyById_cons]
    by_cases h : (x.id == i) = true
    · rw [if_pos h, entryById_cons, entryById_cons, hf x]
      have hxi : x.id = i := by simpa using h
      have hxj : (x.id == j) = false := by
        simp only [beq_eq_false_iff_ne, ne_eq, hxi]
        intro hij
        exact hne hij.symm
      rw [hxj]
      simp
    · rw [if_neg h, entryById_cons, entryById_cons]
      by_cases hj : (x.id == j) = true
      · rw [if_pos hj, if_pos hj]
      · rw [if_neg hj, if_neg hj]
        exact ih

/-- The entry with the modified id becomes its image under the update. -/
theorem entryById_modifyById_self (f : Task → Task) (hf : ∀ x, (f x).id = x.id)
    (i : String) :
    ∀ (s : List Task) (e : Task), entryById s i = some e →
      entryById (modifyById s i f) i = some (f e) := by
  intro s
  induction s with
  | nil => intro e he; simp [entryById, List.find?] at he
  | cons x rest ih =>
    intro e he
    rw [entryById_cons] at he
    rw [modifyById_cons]
    by_cases h : (x.id == i) = true
    · rw [if_pos h] at he
      rw [if_pos h, entryById_cons, hf x]
      rw [h]
      simp only [if_pos]
      simp only [Option.some.injEq] at he
      rw [he]
    · have hfalse : (x.id == i) = false := by simpa using h
      rw [hfalse] at he
      simp only [Bool.false_eq_true, if_false] at he
      rw [if_neg h, entryById_cons, hfalse]
      simp only [Bool.false_eq_true, if_false]
      exact ih e he

/-- `modifyById` preserves any projection the update preserves. -/
theorem modifyById_map_proj {β : Type} (g : Task → β) (f : Task → Task)
    (hg : ∀ x, g (f x) = g x) (i : String) :
    ∀ s : List Task, (modifyById s i f).map g = s.map g := by
  intro s
  induction s with
  | nil => rfl
  | cons x rest ih =>
    rw [modifyById_cons]
    by_cases h : (x.id == i) = true
    · rw [if_pos h]
      simp only [List.map_cons, hg]
    · rw [if_neg h]
      simp only [List.map_cons, ih]

/-- Positions holding other ids survive `modifyById`. -/
theorem modifyById_get?_ne (f : Task → Task) (i : String) :
    ∀ (s : List Task) (k : Nat) (e : Task), s.get? k = some e → ¬ e.id = i →
      (modifyById s i f).get? k = s.get? k := by
  intro s
  induction s with
  | nil => intro k e he _; simp at he
  | cons x rest ih =>
    intro k e he hne
    rw [modifyById_cons]
    by_cases h : (x.id == i) = true
    · rw [if_pos h]
      cases k with
      | zero =>
        simp only [List.get?] at he
        have hxe : x = e := by simpa using he
        have hxi : x.id = i := by simpa using h
        rw [hxe] at hxi
        exact absurd hxi hne
      | succ n => rfl
    · rw [if_neg h]
      cases k with
      | zero => rfl
      | succ n =>
        simp only [List.get?]
        exact ih n e he hne

/-- Lists with equal shape projections have equal shape at every
position. -/
theorem get?_shape_congr (s1 s2 : List Task) (h : s1.map shapeOf = s2.map shapeOf)
    (k : Nat) : Option.map shapeOf (s1.get? k) = Option.map shapeOf (s2.get? k) := by
  rw [← List.get?_map, ← List.get?_map, h]

/-- Two members of a list with `Nodup` ids and the same id are equal. -/
theorem nodup_id_inj {tasks : List Task} (hnd : (tasks.map Task.id).Nodup)
    {a b : Task} (ha : a ∈ tasks) (hb : b ∈ tasks) (hid : a.id = b.id) : a = b := by
  induction tasks with
  | nil => simp at ha
  | cons x rest ih =>
    simp only [List.map_cons, List.nodup_cons] at hnd
    obtain ⟨hx, hrest⟩ := hnd
    rcases List.mem_cons.mp ha with rfl | ha2
    · rcases List.mem_cons.mp hb with rfl | hb2
      · rfl
      · exact absurd (hid ▸ List.mem_map_of_mem Task.id hb2) hx
    · rcases List.mem_cons.mp hb with rfl | hb2
      · exact absurd (hid ▸ List.mem_map_of_mem Task.id ha2) hx
      · exact ih hrest ha2 hb2

/-- With `Nodup` ids, looking a member up by its id finds it. -/
theorem entryById_of_mem {tasks : List Task} (hnd : (tasks.map Task.id).Nodup)
    {t : Task} (ht : t ∈ tasks) : entryById tasks t.id = some t := by
  induction tasks with
  | nil => simp at ht
  | cons x rest ih =>
    simp only [List.map_cons, List.nodup_cons] at hnd
    obtain ⟨hx, hrest⟩ := hnd
    rw [entryById_cons]
    rcases List.mem_cons.mp ht with rfl | ht2
    · simp
    · have hne : (x.id == t.id) = false := by
        simp only [beq_eq_false_iff_ne, ne_eq]
        intro he
        exact hx (he ▸ List.mem_map_of_mem Task.id ht2)
      rw [hne]
      simp only [Bool.false_eq_true, if_false]
      exact ih hrest ht2

/-- Lists with equal shape projections have entries of equal shape. -/
theorem entryById_shape_congr (j : String) :
    ∀ (s1 s2 : List Task), s1.map shapeOf = s2.map shapeOf →
      Option.map shapeOf (entryById s1 j) = Option.map shapeOf (entryById s2 j) := by
  intro s1
  induction s1 with
  | nil =>
    intro s2 h
    cases s2 with
    | nil => rfl
    | cons u r2 => simp at h
  | cons x r1 ih =>
    intro s2 h
    cases s2 with
    | nil => simp at h
    | cons u r2 =>
      simp only [List.map_cons, List.cons.injEq] at h
      obtain ⟨hsh, htail⟩ := h
      rw [entryById_cons, entryById_cons]
      have hid : x.id = u.id := congrArg (fun q => q.1) hsh
      rw [hid]
      by_cases hj : (u.id == j) = true
      · rw [if_pos hj, if_pos hj]
        simp [hsh]
      · rw [if_neg hj, if_neg hj]
        exact ih r2 htail

/-- An aggregation fold preserves the shape projections. -/
theorem foldl_step_shape (step : List Task → Task → List Task)
    (hshape : ∀ s q, (step s q).map shapeOf = s.map shapeOf) :
    ∀ (P : List Task) (s : List Task),
    (P.foldl step s).map shapeOf = s.map shapeOf := by
  intro P
  induction P with
  | nil => intro s; rfl
  | cons q rest ih =>
    intro s
    rw [List.foldl_cons, ih, hshape]

/-- Entries whose id is processed by no element of the fold are
untouched. -/
theorem foldl_step_entry_ne (step : List Task → Task → List Task)
    (hne : ∀ s q j, ¬ j = q.id → entryById (step s q) j = entryById s j) :
    ∀ (P : List Task) (s : List Task) (j : String),
    (∀ q ∈ P, ¬ j = q.id) → entryById (P.foldl step s) j = entryById s j := by
  intro P
  induction P with
  | nil => intro s j _; rfl
  | cons q rest ih =>
    intro s j hq
    rw [List.foldl_cons, ih _ _ (fun u hu => hq u (List.mem_cons_of_mem q hu)),
      hne _ _ _ (hq q (List.mem_cons_self q rest))]

/-- Positions whose id is processed by no element of the fold are
untouched. -/
theorem foldl_step_get?_frame (step : List Task → Task → List Task)
    (hpos : ∀ s q k e, s.get? k = some e → ¬ e.id = q.id →
      (step s q).get? k = s.get? k) :
    ∀ (P : List Task) (s : List Task) (k : Nat) (e : Task),
    s.get? k = some e → (∀ q ∈ P, ¬ e.id = q.id) →
    (P.foldl step s).get? k = s.get? k := by
  intro P
  induction P with
  | nil => intro s k e _ _; rfl
  | cons q rest ih =>
    intro s k e he hq
    have hstep := hpos s q k e he (hq q (List.mem_cons_self q rest))
    have he2 : (step s q).get? k = some e := hstep.trans he
    rw [List.foldl_cons, ih _ _ e he2 (fun u hu => hq u (List.mem_cons_of_mem q hu)), hstep]

/-- `findDirectChildren` is determined by the shapes plus the values at
child-level positions. -/
theorem findDirectChildren_congr (p : Task) : ∀ (s1 s2 : List Task),
    s1.map shapeOf = s2.map shapeOf →
    (∀ k e1 e2, s1.get? k = some e1 → s2.get? k = some e2 →
      e1.level = p.level + 1 → e1 = e2) →
    findDirectChildren p s1 = findDirectChildren p s2 := by
  intro s1
  induction s1 with
  | nil =>
    intro s2 h _
    cases s2 with
    | nil => rfl
    | cons u r2 => simp at h
  | cons x r1 ih =>
    intro s2 h hagree
    cases s2 with
    | nil => simp at h
    | cons u r2 =>
      simp only [List.map_cons, List.cons.injEq] at h
      obtain ⟨hsh, htail⟩ := h
      have hdel : x.isDeleted = u.isDeleted := congrArg (fun q => q.2.2.2.1) hsh
      have hlev : x.level = u.level := congrArg (fun q => q.2.1) hsh
      have hwbs : x.wbsNo = u.wbsNo := congrArg (fun q => q.2.2.1) hsh
      have htl : ∀ k e1 e2, r1.get? k = some e1 → r2.get? k = some e2 →
          e1.level = p.level + 1 → e1 = e2 :=
        fun k e1 e2 h1 h2 => hagree (k + 1) e1 e2 h1 h2
      unfold findDirectChildren
      simp only [List.filter_cons]
      rw [show (!x.isDeleted && x.level == p.level + 1 &&
          startsWithS x.wbsNo (p.wbsNo ++ dotS)) =
        (!u.isDeleted && u.level == p.level + 1 &&
          startsWithS u.wbsNo (p.wbsNo ++ dotS)) by rw [hdel, hlev, hwbs]]
      by_cases hc : (!u.isDeleted && u.level == p.level + 1 &&
          startsWithS u.wbsNo (p.wbsNo ++ dotS)) = true
      · rw [hc]
        have hxlev : x.level = p.level + 1 := by
          rw [hlev]
          have := (Bool.and_eq_true _ _).mp hc
          have h2 := (Bool.and_eq_true _ _).mp this.1
          simpa using h2.2
        have hxu : x = u := hagree 0 x u rfl rfl hxlev
        rw [hxu]
        simp only [if_true]
        have := ih r2 htail htl
        unfold findDirectChildren at this
        rw [this]
      · have hcf : (!u.isDeleted && u.level == p.level + 1 &&
            startsWithS u.wbsNo (p.wbsNo ++ dotS)) = false := by simpa using hc
        rw [hcf]
        simp only [Bool.false_eq_true, if_false]
        have := ih r2 htail htl
        unfold findDirectChildren at this
        rw [this]

/-- The filtered children lists of shape-equal states have equal length. -/
theorem children_length_congr (p : Task) : ∀ (s1 s2 : List Task),
    s1.map shapeOf = s2.map shapeOf →
    ((findDirectChildren p s1).filter (fun t => !t.isDeleted)).length =
      ((findDirectChildren p s2).filter (fun t => !t.isDeleted)).length := by
  intro s1
  induction s1 with
  | nil =>
    intro s2 h
    cases s2 with
    | nil => rfl
    | cons u r2 => simp at h
  | cons x r1 ih =>
    intro s2 h
    cases s2 with
    | nil => simp at h
    | cons u r2 =>
      simp only [List.map_cons, List.cons.injEq] at h
      obtain ⟨hsh, htail⟩ := h
      have hdel : x.isDeleted = u.isDeleted := congrArg (fun q => q.2.2.2.1) hsh
      have hlev : x.level = u.level := congrArg (fun q => q.2.1) hsh
      have hwbs : x.wbsNo = u.wbsNo := congrArg (fun q => q.2.2.1) hsh
      unfold findDirectChildren
      simp only [List.filter_cons]
      rw [show (!x.isDeleted && x.level == p.level + 1 &&
          startsWithS x.wbsNo (p.wbsNo ++ dotS)) =
        (!u.isDeleted && u.level == p.level + 1 &&
          startsWithS u.wbsNo (p.wbsNo ++ dotS)) by rw [hdel, hlev, hwbs]]
      by_cases hc : (!u.isDeleted && u.level == p.level + 1 &&
          startsWithS u.wbsNo (p.wbsNo ++ dotS)) = true
      · rw [hc]
        simp only [if_true, List.filter_cons]
        rw [show (!x.isDeleted) = (!u.isDeleted) by rw [hdel]]
        by_cases hd : (!u.isDeleted) = true
        · rw [hd]
          simp only [if_true, List.length_cons]
          have := ih r2 htail
          unfold findDirectChildren at this
          rw [this]
        · have hdf : (!u.isDeleted) = false := by simpa using hd
          rw [hdf]
          simp only [Bool.false_eq_true, if_false]
          have := ih r2 htail
          unfold findDirectChildren at this
          rw [this]
      · have hcf : (!u.isDeleted && u.level == p.level + 1 &&
            startsWithS u.wbsNo (p.wbsNo ++ dotS)) = false := by simpa using hc
        rw [hcf]
        simp only [Bool.false_eq_true, if_false]
        have := ih r2 htail
        unfold findDirectChildren at this
        rw [this]

/-- Membership in a descending-level insertion. -/
theorem mem_insertByLevelDesc {x t : Task} {l : List Task} :
    x ∈ insertByLevelDesc t l ↔ x = t ∨ x ∈ l := by
  induction l with
  | nil => simp [insertByLevelDesc]
  | cons u rest ih =>
    by_cases h : u.level ≤ t.level
    · simp [insertByLevelDesc, h]
    · simp [insertByLevelDesc, h, ih]
      tauto

/-- A descending-level insertion is a permutation of consing. -/
theorem perm_insertByLevelDesc (t : Task) (l : List Task) :
    List.Perm (insertByLevelDesc t l) (t :: l) := by
  induction l with
  | nil => exact List.Perm.refl _
  | cons u rest ih =>
    by_cases h : u.level ≤ t.level
    · simp only [insertByLevelDesc, h, if_true]
      exact List.Perm.refl _
    · simp only [insertByLevelDesc, h, if_false]
      exact (List.Perm.cons u ih).trans (List.Perm.swap t u rest)

/-- The descending-level sort is a permutation of its input. -/
theorem perm_sortByLevelDesc (l : List Task) :
    List.Perm (sortByLevelDesc l) l := by
  induction l with
  | nil => exact List.Perm.refl _
  | cons t rest ih =>
    exact (perm_insertByLevelDesc t (sortByLevelDesc rest)).trans (List.Perm.cons t ih)

/-- Inserting keeps a descending-level list descending. -/
theorem pairwise_insertByLevelDesc (t : Task) (l : List Task)
    (h : List.Pairwise (fun a b => b.level ≤ a.level) l) :
    List.Pairwise (fun a b => b.level ≤ a.level) (insertByLevelDesc t l) := by
  induction l with
  | nil => simp [insertByLevelDesc]
  | cons u rest ih =>
    rw [List.pairwise_cons] at h
    obtain ⟨hu, hrest⟩ := h
    by_cases hle : u.level ≤ t.level
    · simp only [insertByLevelDesc, hle, if_true]
      rw [List.pairwise_cons]
      refine ⟨?_, List.pairwise_cons.mpr ⟨hu, hrest⟩⟩
      intro v hv
      rcases List.mem_cons.mp hv with rfl | hv2
      · exact hle
      · exact le_trans (hu v hv2) hle
    · simp only [insertByLevelDesc, hle, if_false]
      rw [List.pairwise_cons]
      refine ⟨?_, ih hrest⟩
      intro v hv
      rcases mem_insertByLevelDesc.mp hv with rfl | hv2
      · omega
      · exact hu v hv2

/-- The descending-level sort is descending. -/
theorem pairwise_sortByLevelDesc (l : List Task) :
    List.Pairwise (fun a b => b.level ≤ a.level) (sortByLevelDesc l) := by
  induction l with
  | nil => simp [sortByLevelDesc]
  | cons t rest ih => exact pairwise_insertByLevelDesc t _ ih

/-- `progressStep` preserves shapes. -/
theorem progressStep_shape (s : List Task) (q : Task) :
    (progressStep s q).map shapeOf = s.map shapeOf := by
  simp only [progressStep]
  split
  · apply modifyById_map_proj
    intro x
    rfl
  · rfl

/-- `progressStep` touches only the processed parent's entry. -/
theorem progressStep_entry_ne (s : List Task) (q : Task) (j : String) (hj : ¬ j = q.id) :
    entryById (progressStep s q) j = entryById s j := by
  simp only [progressStep]
  split
  · apply entryById_modifyById_ne
    · intro x
      rfl
    · exact hj
  · rfl

/-- `progressStep` touches only positions holding the processed parent's
id. -/
theorem progressStep_get?_ne (s : List Task) (q : Task) (k : Nat) (e : Task)
    (he : s.get? k = some e) (hne : ¬ e.id = q.id) :
    (progressStep s q).get? k = s.get? k := by
  simp only [progressStep]
  split
  · exact modifyById_get?_ne _ q.id s k e he hne
  · rfl

/-- `dateStep` preserves shapes. -/
theorem dateStep_shape (hol : Int → Bool) (s : List Task) (q : Task) :
    (dateStep hol s q).map shapeOf = s.map shapeOf := by
  simp only [dateStep]
  split
  · split
    · apply modifyById_map_proj
      intro x
      rfl
    · rfl
  · rfl

/-- `dateStep` touches only the processed parent's entry. -/
theorem dateStep_entry_ne (hol : Int → Bool) (s : List Task) (q : Task) (j : String)
    (hj : ¬ j = q.id) : entryById (dateStep hol s q) j = entryById s j := by
  unfold dateStep
  split
  · split
    · apply entryById_modifyById_ne
      · intro x
        rfl
      · exact hj
    · rfl
  · rfl

/-- `dateStep` touches only positions holding the processed parent's id. -/
theorem dateStep_get?_ne (hol : Int → Bool) (s : List Task) (q : Task) (k : Nat) (e : Task)
    (he : s.get? k = some e) (hne : ¬ e.id = q.id) :
    (dateStep hol s q).get? k = s.get? k := by
  simp only [dateStep]
  split
  · split
    · exact modifyById_get?_ne _ q.id s k e he hne
    · rfl
  · rfl

/-- A position of a shape-equal list corresponds to a position of the
reference list with the same shape. -/
theorem get?_shape_exists (s tasks : List Task) (h : s.map shapeOf = tasks.map shapeOf)
    (k : Nat) (e : Task) (he : s.get? k = some e) :
    ∃ t0, tasks.get? k = some t0 ∧ shapeOf e = shapeOf t0 := by
  have hc := get?_shape_congr s tasks h k
  rw [he] at hc
  cases ht : tasks.get? k with
  | none => rw [ht] at hc; simp at hc
  | some t0 =>
    rw [ht] at hc
    simp only [Option.map_some', Option.some.injEq] at hc
    exact ⟨t0, rfl, hc⟩

/-- The heart of the bottom-up aggregation argument, shared by
`updateParentDates` and `updateParentProgress`.  For a parent `p` in the
processing list, the fold's final value at `p`'s entry is exactly the value
written when `p` itself was processed (state `s1`), and `p`'s direct
children are the same lists in `s1`, right after `p`'s step, and in the
final output — later steps only touch tasks of level `≤ p.level`. -/
theorem parentFold_main (step : List Task → Task → List Task)
    (hshape : ∀ s q, (step s q).map shapeOf = s.map shapeOf)
    (hne : ∀ s q j, ¬ j = q.id → entryById (step s q) j = entryById s j)
    (hpos : ∀ s q k e, s.get? k = some e → ¬ e.id = q.id →
      (step s q).get? k = s.get? k)
    (flt : Task → Bool) (tasks : List Task) (p : Task)
    (hnd : (tasks.map Task.id).Nodup) (hp : p ∈ tasks) (hflt : flt p = true) :
    ∃ s1 : List Task,
      s1.map shapeOf = tasks.map shapeOf ∧
      entryById s1 p.id = some p ∧
      entryById ((sortByLevelDesc (tasks.filter flt)).foldl step tasks) p.id =
        entryById (step s1 p) p.id ∧
      findDirectChildren p ((sortByLevelDesc (tasks.filter flt)).foldl step tasks) =
        findDirectChildren p (step s1 p) ∧
      findDirectChildren p (step s1 p) = findDirectChildren p s1 := by
  have hndl : tasks.Nodup := List.Nodup.of_map Task.id hnd
  have hpf : p ∈ tasks.filter flt := List.mem_filter.mpr ⟨hp, hflt⟩
  have hperm := perm_sortByLevelDesc (tasks.filter flt)
  have hpP : p ∈ sortByLevelDesc (tasks.filter flt) := hperm.mem_iff.mpr hpf
  obtain ⟨l1, l2, hdec⟩ := List.append_of_mem hpP
  have hPnd : (sortByLevelDesc (tasks.filter flt)).Nodup :=
    hperm.nodup_iff.mpr (List.Nodup.filter flt hndl)
  have hPpair := pairwise_sortByLevelDesc (tasks.filter flt)
  have hmemP : ∀ q ∈ sortByLevelDesc (tasks.filter flt), q ∈ tasks :=
    fun q hq => (List.mem_filter.mp (hperm.mem_iff.mp hq)).1
  have hmem1 : ∀ q ∈ l1, q ∈ tasks := fun q hq =>
    hmemP q (hdec ▸ List.mem_append.mpr (Or.inl hq))
  have hmem2 : ∀ q ∈ l2, q ∈ tasks := fun q hq =>
    hmemP q (hdec ▸ List.mem_append.mpr (Or.inr (List.mem_cons_of_mem p hq)))
  rw [hdec] at hPnd hPpair
  rw [List.nodup_append] at hPnd
  have hl1 : p ∉ l1 := fun hmem => hPnd.2.2 hmem (List.mem_cons_self p l2)
  have hl2 : p ∉ l2 := (List.nodup_cons.mp hPnd.2.1).1
  have hsorted : ∀ q ∈ l2, q.level ≤ p.level := by
    rw [List.pairwise_append] at hPpair
    exact (List.pairwise_cons.mp hPpair.2.1).1
  have hid1 : ∀ q ∈ l1, ¬ p.id = q.id := by
    intro q hq heq
    have := nodup_id_inj hnd hp (hmem1 q hq) heq
    exact hl1 (this ▸ hq)
  have hid2 : ∀ q ∈ l2, ¬ p.id = q.id := by
    intro q hq heq
    have := nodup_id_inj hnd hp (hmem2 q hq) heq
    exact hl2 (this ▸ hq)
  refine ⟨l1.foldl step tasks, foldl_step_shape step hshape l1 tasks, ?_, ?_, ?_, ?_⟩
  · rw [foldl_step_entry_ne step hne l1 tasks p.id hid1]
    exact entryById_of_mem hnd hp
  · rw [hdec, List.foldl_append, List.foldl_cons,
      foldl_step_entry_ne step hne l2 _ p.id hid2]
  · have hs1shape := foldl_step_shape step hshape l1 tasks
    have hs2shape : (step (l1.foldl step tasks) p).map shapeOf = tasks.map shapeOf :=
      (hshape _ p).trans hs1shape
    rw [hdec, List.foldl_append, List.foldl_cons]
    apply findDirectChildren_congr p
    · exact (foldl_step_shape step hshape l2 _).trans hs2shape |>.trans hs2shape.symm
    · intro k e1 e2 h1 h2 hlev
      have hframe : (l2.foldl step (step (l1.foldl step tasks) p)).get? k =
          (step (l1.foldl step tasks) p).get? k := by
        apply foldl_step_get?_frame step hpos l2 _ k e2 h2
        intro q hq heq
        obtain ⟨t0, ht0, hsh0⟩ := get?_shape_exists _ tasks hs2shape k e2 h2
        have hids : t0.id = q.id := by
          have : e2.id = t0.id := congrArg (fun z => z.1) hsh0
          rw [← this, heq]
        have ht0q : t0 = q := nodup_id_inj hnd (List.get?_mem ht0) (hmem2 q hq) hids
        have hlev2 : e2.level = t0.level := congrArg (fun z => z.2.1) hsh0
        have hlev3 : e1.level = e2.level := by
          obtain ⟨u, hu, hshu⟩ := get?_shape_exists _ (step (l1.foldl step tasks) p)
            ((foldl_step_shape step hshape l2 _)) k e1 h1
          rw [hu] at h2
          simp only [Option.some.injEq] at h2
          rw [h2] at hshu
          exact congrArg (fun z => z.2.1) hshu
        have := hsorted q hq
        rw [ht0q] at hlev2
        omega
      rw [h1, h2] at hframe
      simp only [Option.some.injEq] at hframe
      rw [hframe]
  · have hs1shape := foldl_step_shape step hshape l1 tasks
    apply findDirectChildren_congr p
    · exact (hshape _ p).trans hs1shape |>.trans hs1shape.symm
    · intro k e1 e2 h1 h2 hlev
      have hframe : (step (l1.foldl step tasks) p).get? k =
          (l1.foldl step tasks).get? k := by
        apply hpos _ p k e2 h2
        intro heq
        obtain ⟨t0, ht0, hsh0⟩ := get?_shape_exists _ tasks hs1shape k e2 h2
        have hids : t0.id = p.id := by
          have : e2.id = t0.id := congrArg (fun z => z.1) hsh0
          rw [← this, heq]
        have ht0p : t0 = p := nodup_id_inj hnd (List.get?_mem ht0) hp hids
        have hlev2 : e2.level = t0.level := congrArg (fun z => z.2.1) hsh0
        have hlev3 : e1.level = e2.level := by
          obtain ⟨u, hu, hshu⟩ := get?_shape_exists _ (l1.foldl step tasks)
            (hshape _ p) k e1 h1
          rw [hu] at h2
          simp only [Option.some.injEq] at h2
          rw [h2] at hshu
          exact congrArg (fun z => z.2.1) hshu
        rw [ht0p] at hlev2
        omega
      rw [h1, h2] at hframe
      simp only [Option.some.injEq] at hframe
      rw [hframe]

/-- C5: for every non-deleted parent with at least one non-deleted direct
child, `updateParentProgress` sets the parent's progress to the mean of its
direct children's progress values, rounded to one decimal place and clamped
to `[0, 100]` (`childrenProgressValue`); a parent with no direct children
keeps its entry — in particular its progress — unchanged; and on the
Scenario E project (a parent with two children at progress 40 and 80) the
parent's progress recomputes to 60. -/
theorem parentProgressMean (tasks : List Task) (p : Task)
    (hnd : (tasks.map Task.id).Nodup) (hp : p ∈ tasks)
    (hdel : p.isDeleted = false) (hpar : p.isParent = true) :
    (0 < ((findDirectChildren p tasks).filter (fun t => !t.isDeleted)).length →
      ∃ e, entryById (updateParentProgress tasks) p.id = some e ∧
        e.progress = childrenProgressValue
          ((findDirectChildren p (updateParentProgress tasks)).filter
            (fun t => !t.isDeleted))) ∧
    (findDirectChildren p tasks = [] →
      entryById (updateParentProgress tasks) p.id = some p) ∧
    (∃ e, entryById (updateParentProgress [c5p, c5c1, c5c2]) c5p.id = some e ∧
      e.progress = 60) := by
  obtain ⟨s1, hs1shape, he1, hout_entry, hch_out, hch_s2⟩ :=
    parentFold_main progressStep progressStep_shape progressStep_entry_ne
      progressStep_get?_ne (fun t => !t.isDeleted && t.isParent) tasks p hnd hp
      (by simp [hdel, hpar])
  have hchlen := children_length_congr p s1 tasks hs1shape
  refine ⟨?_, ?_, ?_⟩
  · intro hlen
    have hlen1 : 0 < ((findDirectChildren p s1).filter (fun t => !t.isDeleted)).length := by
      rw [hchlen]; exact hlen
    have hstep : progressStep s1 p = modifyById s1 p.id
        (fun e => { e with progress :=
          childrenProgressValue ((findDirectChildren p s1).filter (fun t => !t.isDeleted)) }) := by
      simp only [progressStep]
      rw [if_pos hlen1]
    have hentry : entryById (progressStep s1 p) p.id =
        some { p with progress :=
          childrenProgressValue ((findDirectChildren p s1).filter (fun t => !t.isDeleted)) } := by
      rw [hstep]
      exact entryById_modifyById_self (fun e => { e with progress := childrenProgressValue ((findDirectChildren p s1).filter (fun t => !t.isDeleted)) }) (fun x => rfl) p.id s1 p he1
    refine ⟨{ p with progress := childrenProgressValue ((findDirectChildren p s1).filter (fun t => !t.isDeleted)) }, ?_, ?_⟩
    · show entryById (updateParentProgress tasks) p.id = _
      rw [show updateParentProgress tasks =
        (sortByLevelDesc (tasks.filter (fun t => !t.isDeleted && t.isParent))).foldl
          progressStep tasks from rfl, hout_entry, hentry]
    · show childrenProgressValue ((findDirectChildren p s1).filter (fun t => !t.isDeleted)) =
        childrenProgressValue ((findDirectChildren p (updateParentProgress tasks)).filter
          (fun t => !t.isDeleted))
      rw [show updateParentProgress tasks =
        (sortByLevelDesc (tasks.filter (fun t => !t.isDeleted && t.isParent))).foldl
          progressStep tasks from rfl, hch_out, hch_s2]
  · intro hempty
    have hlen0 : ((findDirectChildren p tasks).filter (fun t => !t.isDeleted)).length = 0 := by
      rw [hempty]; rfl
    have hlen1 : ¬ 0 < ((findDirectChildren p s1).filter (fun t => !t.isDeleted)).length := by
      rw [hchlen, hlen0]; omega
    have hstep : progressStep s1 p = s1 := by
      simp only [progressStep]
      rw [if_neg hlen1]
    show entryById (updateParentProgress tasks) p.id = some p
    rw [show updateParentProgress tasks =
      (sortByLevelDesc (tasks.filter (fun t => !t.isDeleted && t.isParent))).foldl
        progressStep tasks from rfl, hout_entry, hstep, he1]
  · refine ⟨{ c5p with progress := childrenProgressValue ((findDirectChildren c5p [c5p, c5c1, c5c2]).filter (fun t => !t.isDeleted)) }, rfl, ?_⟩
    show childrenProgressValue ((findDirectChildren c5p [c5p, c5c1, c5c2]).filter (fun t => !t.isDeleted)) = 60
    have hch : (findDirectChildren c5p [c5p, c5c1, c5c2]).filter (fun t => !t.isDeleted) =
        [c5c1, c5c2] := by decide
    rw [hch]
    simp only [childrenProgressValue, List.foldl, List.length, jsRound]
    norm_num [c5c1, c5c2]

/-- C6: for every non-deleted parent with at least one non-deleted direct
child having a set planned start date, `updateParentDates` sets the
parent's planned start date to the minimum of its direct children's set
planned start dates (unset ones ignored) and its planned end date to the
maximum of their set planned end dates. -/
theorem parentDateDerivation (hol : Int → Bool) (tasks : List Task) (p : Task)
    (hnd : (tasks.map Task.id).Nodup) (hp : p ∈ tasks)
    (hdel : p.isDeleted = false) (hpar : p.isParent = true)
    (hstart : ∃ c ∈ (findDirectChildren p tasks).filter (fun t => !t.isDeleted),
      c.startDate.isSome = true) :
    ∃ e, entryById (updateParentDates hol tasks) p.id = some e ∧
      e.startDate = listMinInt
        (((findDirectChildren p (updateParentDates hol tasks)).filter
          (fun t => !t.isDeleted)).filterMap Task.startDate) ∧
      e.endDate = listMaxInt
        (((findDirectChildren p (updateParentDates hol tasks)).filter
          (fun t => !t.isDeleted)).filterMap Task.endDate) := by
  obtain ⟨s1, hs1shape, he1, hout_entry, hch_out, hch_s2⟩ :=
    parentFold_main (dateStep hol) (dateStep_shape hol) (dateStep_entry_ne hol)
      (dateStep_get?_ne hol) (fun t => !t.isDeleted) tasks p hnd hp
      (by simp [hdel])
  have hchlen := children_length_congr p s1 tasks hs1shape
  obtain ⟨c, hc, _⟩ := hstart
  have hlen : 0 < ((findDirectChildren p tasks).filter (fun t => !t.isDeleted)).length :=
    List.length_pos_of_mem hc
  have hlen1 : 0 < ((findDirectChildren p s1).filter (fun t => !t.isDeleted)).length := by
    rw [hchlen]; exact hlen
  have hstep : dateStep hol s1 p = modifyById s1 p.id
      (dateUpd hol ((findDirectChildren p s1).filter (fun t => !t.isDeleted))) := by
    simp only [dateStep, hpar, if_true]
    rw [if_pos hlen1]
  have hentry : entryById (dateStep hol s1 p) p.id =
      some (dateUpd hol ((findDirectChildren p s1).filter (fun t => !t.isDeleted)) p) := by
    rw [hstep]
    exact entryById_modifyById_self
      (dateUpd hol ((findDirectChildren p s1).filter (fun t => !t.isDeleted)))
      (fun x => rfl) p.id s1 p he1
  refine ⟨dateUpd hol ((findDirectChildren p s1).filter (fun t => !t.isDeleted)) p, ?_, ?_, ?_⟩
  · show entryById (updateParentDates hol tasks) p.id = _
    rw [show updateParentDates hol tasks =
      (sortByLevelDesc (tasks.filter (fun t => !t.isDeleted))).foldl (dateStep hol) tasks
      from rfl, hout_entry, hentry]
  · show listMinInt _ = listMinInt _
    rw [show updateParentDates hol tasks =
      (sortByLevelDesc (tasks.filter (fun t => !t.isDeleted))).foldl (dateStep hol) tasks
      from rfl, hch_out, hch_s2]
  · show listMaxInt _ = listMaxInt _
    rw [show updateParentDates hol tasks =
      (sortByLevelDesc (tasks.filter (fun t => !t.isDeleted))).foldl (dateStep hol) tasks
      from rfl, hch_out, hch_s2]

/-- C6 witness: a parent with children planned over days 10–12 and 5–20
satisfies the hypotheses, the theorem applies, and the derived window
evaluates to days 5–20. -/
theorem parentDateDerivation_witness :
    (([c6p, c6c1, c6c2].map Task.id).Nodup ∧ c6p ∈ [c6p, c6c1, c6c2] ∧
      c6p.isDeleted = false ∧ c6p.isParent = true ∧
      (∃ c ∈ (findDirectChildren c6p [c6p, c6c1, c6c2]).filter (fun t => !t.isDeleted),
        c.startDate.isSome = true)) ∧
    (∃ e, entryById (updateParentDates holZero [c6p, c6c1, c6c2]) c6p.id = some e ∧
      e.startDate = listMinInt
        (((findDirectChildren c6p (updateParentDates holZero [c6p, c6c1, c6c2])).filter
          (fun t => !t.isDeleted)).filterMap Task.startDate) ∧
      e.endDate = listMaxInt
        (((findDirectChildren c6p (updateParentDates holZero [c6p, c6c1, c6c2])).filter
          (fun t => !t.isDeleted)).filterMap Task.endDate)) ∧
    (∃ e, entryById (updateParentDates holZero [c6p, c6c1, c6c2]) c6p.id = some e ∧
      e.startDate = some 5 ∧ e.endDate = some 20) :=
  ⟨⟨by decide, by decide, rfl, rfl, by decide⟩,
    parentDateDerivation holZero [c6p, c6c1, c6c2] c6p (by decide) (by decide) rfl rfl
      (by decide),
    by decide⟩

/-- A four-way concatenation is non-empty iff one of its parts is. -/
theorem append4_ne_nil {α : Type} (a b c d : List α) :
    (a ++ b ++ c ++ d) ≠ [] ↔ a ≠ [] ∨ b ≠ [] ∨ c ≠ [] ∨ d ≠ [] := by
  simp only [ne_eq, List.append_eq_nil]
  tauto

/-- A conditional singleton is non-empty iff its condition holds. -/
theorem if_singleton_ne_nil {α : Type} (c : Prop) [Decidable c] (x : α) :
    (if c then [x] else ([] : List α)) ≠ [] ↔ c := by
  split
  · simp [*]
  · simp [*]

/-- A filtered list is non-empty iff some element passes the filter. -/
theorem filter_ne_nil_iff {α : Type} (l : List α) (p : α → Bool) :
    l.filter p ≠ [] ↔ ∃ a ∈ l, p a = true := by
  induction l with
  | nil => simp
  | cons x rest ih =>
    rw [List.filter_cons]
    by_cases h : p x = true
    · simp [h]
    · simp only [h, Bool.false_eq_true, if_false, ih, List.mem_cons]
      constructor
      · rintro ⟨a, ha, hpa⟩
        exact ⟨a, Or.inr ha, hpa⟩
      · rintro ⟨a, ha | ha, hpa⟩
        · rw [ha] at hpa; exact absurd hpa h
        · exact ⟨a, ha, hpa⟩

/-- Insertion keeps exactly the old elements plus the new one. -/
theorem mem_insertNatAsc (n a : Nat) (l : List Nat) :
    a ∈ insertNatAsc n l ↔ a = n ∨ a ∈ l := by
  induction l with
  | nil => simp [insertNatAsc]
  | cons m rest ih =>
    rw [insertNatAsc]
    split
    · simp
    · simp only [List.mem_cons, ih]
      tauto

/-- Sorting the indices preserves membership. -/
theorem mem_sortNatAsc (a : Nat) (l : List Nat) : a ∈ sortNatAsc l ↔ a ∈ l := by
  induction l with
  | nil => simp [sortNatAsc]
  | cons n rest ih =>
    rw [sortNatAsc, mem_insertNatAsc, ih, List.mem_cons]

/-- A `min`-fold never exceeds its seed. -/
theorem foldl_min_le (l : List Nat) : ∀ k : Nat, l.foldl min k ≤ k := by
  induction l with
  | nil => intro k; exact le_refl k
  | cons x rest ih =>
    intro k
    rw [List.foldl_cons]
    exact le_trans (ih _) (min_le_left _ _)

/-- A `min`-fold over a list containing 0 is 0. -/
theorem foldl_min_zero (l : List Nat) : ∀ k : Nat, 0 ∈ l → l.foldl min k = 0 := by
  induction l with
  | nil => intro k h; cases h
  | cons x rest ih =>
    intro k h
    rw [List.foldl_cons]
    rcases List.mem_cons.mp h with h0 | h0
    · have := foldl_min_le rest (min k x)
      rw [← h0] at this ⊢
      simp only [Nat.min_zero] at this ⊢
      omega
    · exact ih _ h0

/-- The option-valued fold of `listMinNat`, once seeded, is the plain
`min`-fold. -/
theorem listMinNat_go (l : List Nat) : ∀ m : Nat,
    l.foldl (fun acc x => match acc with | none => some x | some m => some (min m x))
      (some m) = some (l.foldl min m) := by
  induction l with
  | nil => intro m; rfl
  | cons x rest ih =>
    intro m
    rw [List.foldl_cons, List.foldl_cons]
    exact ih (min m x)

/-- `listMinNat` of a list containing 0 is 0. -/
theorem listMinNat_zero (l : List Nat) (h : 0 ∈ l) : listMinNat l = some 0 := by
  cases l with
  | nil => cases h
  | cons x rest =>
    simp only [listMinNat]
    rw [List.foldl_cons]
    have hgo := listMinNat_go rest x
    refine hgo.trans ?_
    congr 1
    rcases List.mem_cons.mp h with h0 | h0
    · have := foldl_min_le rest x
      rw [← h0] at this ⊢
      omega
    · exact foldl_min_zero rest x h0

/-- When the first visible task is selected, index 0 is among the sorted
selected indices. -/
theorem head_selected_idx_zero (tasks : List Task) (sel : List String) (t0 : Task)
    (hh : (visibleOf tasks).head? = some t0) (hs : sel.contains t0.id = true) :
    (selectedIdxOf tasks sel).contains 0 = true := by
  cases hv : visibleOf tasks with
  | nil => rw [hv] at hh; cases hh
  | cons x rest =>
    rw [hv] at hh
    simp only [List.head?_cons, Option.some.injEq] at hh
    subst hh
    have hsel : selectedOf tasks sel = x :: rest.filter (fun t => sel.contains t.id) := by
      rw [selectedOf, hv, List.filter_cons, if_pos hs]
    have h0 : (0 : Nat) ∈ (selectedOf tasks sel).map (fun task =>
        (visibleOf tasks).findIdx (fun t => t.id == task.id)) := by
      rw [hsel]
      refine List.mem_map.mpr ⟨x, List.mem_cons_self _ _, ?_⟩
      rw [hv, List.findIdx_cons]
      simp
    have h1 : (0 : Nat) ∈ selectedIdxOf tasks sel := by
      simp only [selectedIdxOf]
      exact (mem_sortNatAsc _ _).mpr h0
    simpa [List.contains, List.elem_iff] using h1

/-- C8: with a non-empty selection, `updateTaskLevelsForIndent` raises an
error (returning no updated list, so no task's level changes) whenever the
first visible task is selected or the sorted selected indices are not
contiguous; `updateTaskLevelsForOutdent` raises an error whenever some
selected task sits at root level or the selection is not contiguous. -/
theorem indentOutdentErrors (tasks : List Task) (sel : List String)
    (hne : sel.isEmpty = false) :
    ((∃ t0, (visibleOf tasks).head? = some t0 ∧ sel.contains t0.id = true) ∨
        isContiguousRun (selectedIdxOf tasks sel) = false →
      ∃ msg, updateTaskLevelsForIndent tasks sel = .error msg) ∧
    ((∃ t ∈ selectedOf tasks sel, t.level = 0) ∨
        isContiguousRun (selectedIdxOf tasks sel) = false →
      ∃ msg, updateTaskLevelsForOutdent tasks sel = .error msg) := by
  constructor
  · intro h
    simp only [updateTaskLevelsForIndent]
    rw [if_neg (by simp [hne])]
    by_cases h0 : (selectedIdxOf tasks sel).contains 0 = true
    · rw [if_pos h0]
      exact ⟨indentFirstErr, rfl⟩
    · rw [if_neg h0]
      have hcf : isContiguousRun (selectedIdxOf tasks sel) = false := by
        rcases h with h | h
        · obtain ⟨t0, hh, hs⟩ := h
          exact absurd (head_selected_idx_zero tasks sel t0 hh hs) h0
        · exact h
      refine ⟨indentContigErr, ?_⟩
      rw [hcf]
      rfl
  · intro h
    simp only [updateTaskLevelsForOutdent]
    rw [if_neg (by simp [hne])]
    rcases h with h | h
    · obtain ⟨t, ht, hlev⟩ := h
      have hmin : listMinNat ((selectedOf tasks sel).map Task.level) = some 0 :=
        listMinNat_zero _ (List.mem_map.mpr ⟨t, ht, hlev⟩)
      rw [hmin]
      exact ⟨outdentRootErr, rfl⟩
    · cases hmin : listMinNat ((selectedOf tasks sel).map Task.level) with
      | none => exact ⟨outdentContigErr, by simp [h]⟩
      | some m =>
        cases m with
        | zero => exact ⟨outdentRootErr, rfl⟩
        | succ k => exact ⟨outdentContigErr, by simp [h]⟩

/-- C8 witness: selecting the first (root-level) of two visible tasks makes
both operations raise. -/
theorem indentOutdentErrors_witness :
    ([c8a.id].isEmpty = false) ∧
    (∃ msg, updateTaskLevelsForIndent [c8a, c8b] [c8a.id] = .error msg) ∧
    (∃ msg, updateTaskLevelsForOutdent [c8a, c8b] [c8a.id] = .error msg) :=
  ⟨rfl,
    (indentOutdentErrors [c8a, c8b] [c8a.id] rfl).1 (Or.inl ⟨c8a, by decide, by decide⟩),
    (indentOutdentErrors [c8a, c8b] [c8a.id] rfl).2 (Or.inl ⟨c8a, by decide, rfl⟩)⟩

/-- C7 (amended): blank reference text is accepted, and otherwise
`validatePredecessors` reports an error exactly when some parsed reference
names no existing non-deleted task's ordinal, or the task's own ordinal, or
an ancestor's ordinal, or closes a dependency cycle.  Unlike the
specification's reading, the literal `0` is not a sentinel here: it is
parsed as the ordinal 0 like any other reference (and so is rejected
whenever no live task has ordinal 0). -/
theorem predecessorValidation_amended (task : Task) (txt : String) (tasks : List Task) :
    (isEmptyS (trimS txt) = true → validatePredecessors task txt tasks = []) ∧
    (isEmptyS (trimS txt) = false →
      (validatePredecessors task txt tasks ≠ [] ↔
        (∃ n ∈ parsePredIds txt, ¬ ∃ t ∈ tasks, t.isDeleted = false ∧ t.siNo = n) ∨
        task.siNo ∈ parsePredIds txt ∨
        detectCircularDependency tasks task.id txt = true ∨
        (∃ n ∈ parsePredIds txt, n ∈ (findAncestors tasks task).map Task.siNo))) := by
  constructor
  · intro h
    simp only [validatePredecessors]
    rw [if_pos h]
  · intro h
    simp only [validatePredecessors]
    rw [if_neg (by simp [h])]
    rw [append4_ne_nil, if_singleton_ne_nil, if_singleton_ne_nil, if_singleton_ne_nil,
      if_singleton_ne_nil]
    refine or_congr ?_ (or_congr ?_ (or_congr Iff.rfl ?_))
    · rw [List.length_pos, filter_ne_nil_iff]
      apply exists_congr
      intro n
      simp [List.any_eq_true, Bool.not_eq_true', and_assoc]
    · simp [List.contains, List.elem_iff]
    · rw [List.length_pos, filter_ne_nil_iff]
      apply exists_congr
      intro n
      simp [List.contains, List.elem_iff]

/-- C7 (counterexample): on a project holding a single live task with
ordinal 1, the reference text `0` — the specification's sentinel for "no
predecessors" — is rejected by `validatePredecessors` (it parses 0 as an
ordinal and finds no live task carrying it) even though the
specification's rejection condition does not hold. -/
theorem predecessorValidation_counterexample :
    validatePredecessors c7t zeroS [c7t] ≠ [] ∧
      ¬ specPredecessorRejects [c7t] c7t zeroS := by
  constructor
  · decide
  · unfold specPredecessorRejects
    decide

/-- C7 witness: the reference text `1` on the lone task with ordinal 1 is
non-blank and self-referential, so the theorem reports the edit rejected. -/
theorem predecessorValidation_witness :
    isEmptyS (trimS oneS) = false ∧ validatePredecessors c7t oneS [c7t] ≠ [] :=
  ⟨by decide,
    ((predecessorValidation_amended c7t oneS [c7t]).2 (by decide)).mpr
      (Or.inr (Or.inl (by decide)))⟩

/-- C5 witness: on the Scenario E project (a parent with two children at
progress 40 and 80) the hypotheses hold and the theorem applies; its last
conjunct is the recomputed parent progress of 60. -/
theorem parentProgressMean_witness :
    (([c5p, c5c1, c5c2].map Task.id).Nodup ∧ c5p ∈ [c5p, c5c1, c5c2] ∧
      c5p.isDeleted = false ∧ c5p.isParent = true ∧
      0 < ((findDirectChildren c5p [c5p, c5c1, c5c2]).filter (fun t => !t.isDeleted)).length) ∧
    (∃ e, entryById (updateParentProgress [c5p, c5c1, c5c2]) c5p.id = some e ∧
      e.progress = childrenProgressValue
        ((findDirectChildren c5p (updateParentProgress [c5p, c5c1, c5c2])).filter
          (fun t => !t.isDeleted))) ∧
    (∃ e, entryById (updateParentProgress [c5p, c5c1, c5c2]) c5p.id = some e ∧
      e.progress = 60) :=
  ⟨⟨by decide, by decide, rfl, rfl, by decide⟩,
    (parentProgressMean [c5p, c5c1, c5c2] c5p (by decide) (by decide) rfl rfl).1 (by decide),
    (parentProgressMean [c5p, c5c1, c5c2] c5p (by decide) (by decide) rfl rfl).2.2⟩

end Gantt

